import Mathlib

/-!
Verification of the interval_set library (src/traits.rs, src/interval.rs,
src/set.rs) against its natural-language specification.

The index type of the library is any type with a total order together with
successor / predecessor operations (the Rust trait Step).  We shallow-embed
the generic algorithms over an arbitrary linear order equipped with a
StepModel: the two checked step functions together with the order facts that
every instance of the Rust trait satisfies (the successor of x is the least
element above x when it exists, and it exists exactly when x is not the
maximum; dually for the predecessor).

The panicking wrappers Step::forward / Step::backward are modelled by
propagating Option: a function that can panic returns none on the panicking
executions.  All list-level operations of IntervalSet are translated
field-by-field from src/set.rs; Interval operations from src/interval.rs.
-/

namespace ISet

/-- Order-theoretic contract of the Rust Step trait (src/traits.rs):
fwd is forward_checked, bwd is backward_checked.  The four laws hold for
every instance the library provides (fixed-width integers, char, IP
addresses): fwd x is the least element above x and is none exactly when x
is the greatest element, dually for bwd. -/
structure StepModel (α : Type) [LinearOrder α] where
  fwd : α → Option α
  bwd : α → Option α
  fwd_lt : ∀ {x y : α}, fwd x = some y → x < y
  fwd_le : ∀ {x y : α}, fwd x = some y → ∀ {z : α}, x < z → y ≤ z
  fwd_none : ∀ {x : α}, fwd x = none → ∀ z : α, z ≤ x
  bwd_lt : ∀ {x y : α}, bwd x = some y → y < x
  bwd_le : ∀ {x y : α}, bwd x = some y → ∀ {z : α}, z < x → z ≤ y
  bwd_none : ∀ {x : α}, bwd x = none → ∀ z : α, x ≤ z

variable {α : Type} [LinearOrder α]

namespace StepModel

variable (M : StepModel α)

theorem fwd_isSome_of_lt {x w : α} (h : x < w) : (M.fwd x).isSome := by
  cases hf : M.fwd x with
  | none => exact absurd (M.fwd_none hf w) (not_le.mpr h)
  | some s => rfl

theorem bwd_isSome_of_lt {x w : α} (h : w < x) : (M.bwd x).isSome := by
  cases hf : M.bwd x with
  | none => exact absurd (M.bwd_none hf w) (not_le.mpr h)
  | some s => rfl

/-- Monotonicity of the successor: if y above x has a successor then so
does x, and the successors are ordered. -/
theorem fwd_mono {x y t : α} (hxy : x ≤ y) (ht : M.fwd y = some t) :
    ∃ s, M.fwd x = some s ∧ s ≤ t := by
  have hxt : x < t := lt_of_le_of_lt hxy (M.fwd_lt ht)
  cases hf : M.fwd x with
  | none => exact absurd (M.fwd_none hf t) (not_le.mpr hxt)
  | some s => exact ⟨s, rfl, M.fwd_le hf hxt⟩

/-- The successor characterizes strict order from above: s ≤ z ↔ x < z. -/
theorem fwd_le_iff {x s z : α} (h : M.fwd x = some s) : s ≤ z ↔ x < z :=
  ⟨fun hs => lt_of_lt_of_le (M.fwd_lt h) hs, fun hz => M.fwd_le h hz⟩

/-- The predecessor characterizes strict order from below: z ≤ p ↔ z < x. -/
theorem bwd_le_iff {x p z : α} (h : M.bwd x = some p) : z ≤ p ↔ z < x :=
  ⟨fun hz => lt_of_le_of_lt hz (M.bwd_lt h), fun hz => M.bwd_le h hz⟩

/-- forward of the predecessor of x returns x itself. -/
theorem fwd_bwd {x p : α} (h : M.bwd x = some p) : M.fwd p = some x := by
  cases hf : M.fwd p with
  | none => exact absurd (M.fwd_none hf x) (not_le.mpr (M.bwd_lt h))
  | some s =>
    have h1 : s ≤ x := M.fwd_le hf (M.bwd_lt h)
    have h2 : s ≤ p ∨ x ≤ s := by
      rcases lt_or_le s x with hlt | hge
      · exact Or.inl (M.bwd_le h hlt)
      · exact Or.inr hge
    rcases h2 with hsp | hxs
    · exact absurd hsp (not_le.mpr (M.fwd_lt hf))
    · exact congrArg some (le_antisymm h1 hxs)

end StepModel

/-- A closed interval [lo, hi] over the index type (src/interval.rs).
The Rust constructor enforces lo ≤ hi; here validity is a separate
predicate so that the panicking constructor can be modelled faithfully. -/
structure Interval (α : Type) where
  lo : α
  hi : α
deriving DecidableEq

namespace Interval

/-- The membership predicate of a single closed interval. -/
def memI (x : α) (i : Interval α) : Prop := i.lo ≤ x ∧ x ≤ i.hi

instance (x : α) (i : Interval α) : Decidable (memI x i) := by
  unfold memI; infer_instance

/-- Interval::hull — smallest interval containing both (src/interval.rs). -/
def hull (a b : Interval α) : Interval α := ⟨min a.lo b.lo, max a.hi b.hi⟩

/-- Interval::intersection — some when the intervals overlap
(src/interval.rs). -/
def intersection (a b : Interval α) : Option (Interval α) :=
  let lo := max a.lo b.lo
  let hi := min a.hi b.hi
  if lo ≤ hi then some ⟨lo, hi⟩ else none

variable (M : StepModel α)

/-- The left part of Interval::difference: the portion of a strictly below
b.  Outer none is a panic (Step::backward underflow, or the lo ≤ hi assert
of Interval::new). -/
def diffLeft (a b : Interval α) : Option (Option (Interval α)) :=
  if a.lo < b.lo then
    match M.bwd b.lo with
    | none => none
    | some p =>
      let hi := min a.hi p
      if a.lo ≤ hi then some (some ⟨a.lo, hi⟩) else none
  else some none

/-- The right part of Interval::difference: the portion of a strictly above
b.  Outer none is a panic (Step::forward overflow, or the lo ≤ hi assert of
Interval::new). -/
def diffRight (a b : Interval α) : Option (Option (Interval α)) :=
  if b.hi < a.hi then
    match M.fwd b.hi with
    | none => none
    | some s =>
      let lo := max a.lo s
      if lo ≤ a.hi then some (some ⟨lo, a.hi⟩) else none
  else some none

/-- Interval::difference (src/interval.rs): the pair (left, right); outer
none is a panicking execution. -/
def difference (a b : Interval α) :
    Option (Option (Interval α) × Option (Interval α)) :=
  match diffLeft M a b, diffRight M a b with
  | some l, some r => some (l, r)
  | _, _ => none

/-- Membership in the hull is exactly membership in one of the two
intervals, provided the second starts at or before the successor of the
first upper bound (no gap can open). -/
theorem memI_hull_iff {M : StepModel α} {prev i : Interval α} {s : α}
    (hs : M.fwd prev.hi = some s) (hle : i.lo ≤ s) (hlo : prev.lo ≤ i.lo)
    (x : α) : memI x (hull prev i) ↔ memI x prev ∨ memI x i := by
  unfold hull memI
  simp only
  constructor
  · rintro ⟨hl, hr⟩
    rcases le_or_lt x prev.hi with hx | hx
    · rw [min_eq_left hlo] at hl
      exact Or.inl ⟨hl, hx⟩
    · have hsx : s ≤ x := (M.fwd_le_iff hs).mpr hx
      rcases le_max_iff.mp hr with h1 | h1
      · exact absurd h1 (not_le.mpr hx)
      · refine Or.inr ⟨le_trans hle hsx, h1⟩
  · rintro (⟨h1, h2⟩ | ⟨h1, h2⟩)
    · exact ⟨le_trans (min_le_left _ _) h1, le_trans h2 (le_max_left _ _)⟩
    · exact ⟨le_trans (min_le_right _ _) h1, le_trans h2 (le_max_right _ _)⟩

theorem memI_intersection_some {a b e : Interval α}
    (h : intersection a b = some e) (x : α) :
    memI x e ↔ memI x a ∧ memI x b := by
  unfold intersection at h
  simp only at h
  split at h
  · cases h
    unfold memI
    simp only [max_le_iff, le_min_iff]
    tauto
  · cases h

theorem memI_intersection_none {a b : Interval α}
    (h : intersection a b = none) (x : α) : ¬ (memI x a ∧ memI x b) := by
  unfold intersection at h
  simp only at h
  split at h
  · cases h
  · rename_i hlt
    rintro ⟨⟨h1, h2⟩, h3, h4⟩
    exact hlt (le_trans (max_le h1 h3) (le_min h2 h4))

theorem intersection_some_bounds {a b e : Interval α}
    (h : intersection a b = some e) :
    e.lo = max a.lo b.lo ∧ e.hi = min a.hi b.hi ∧ e.lo ≤ e.hi := by
  unfold intersection at h
  simp only at h
  split at h
  · cases h; exact ⟨rfl, rfl, by assumption⟩
  · cases h

variable {M : StepModel α}

theorem diffLeft_eq_none {a b : Interval α} (h : ¬ a.lo < b.lo) :
    diffLeft M a b = some none := by
  unfold diffLeft
  rw [if_neg h]

theorem diffLeft_eq_some {a b : Interval α} (ha : a.lo ≤ a.hi)
    (hlt : a.lo < b.lo) :
    ∃ p, M.bwd b.lo = some p ∧
      diffLeft M a b = some (some ⟨a.lo, min a.hi p⟩) ∧
      a.lo ≤ min a.hi p := by
  have hb : (M.bwd b.lo).isSome := M.bwd_isSome_of_lt hlt
  cases hbv : M.bwd b.lo with
  | none => rw [hbv] at hb; cases hb
  | some p =>
    have hap : a.lo ≤ p := M.bwd_le hbv hlt
    have hmin : a.lo ≤ min a.hi p := le_min ha hap
    refine ⟨p, rfl, ?_, hmin⟩
    unfold diffLeft
    rw [if_pos hlt, hbv]
    simp only [hmin, if_pos]

theorem diffRight_eq_none {a b : Interval α} (h : ¬ b.hi < a.hi) :
    diffRight M a b = some none := by
  unfold diffRight
  rw [if_neg h]

theorem diffRight_eq_some {a b : Interval α} (ha : a.lo ≤ a.hi)
    (hgt : b.hi < a.hi) :
    ∃ s, M.fwd b.hi = some s ∧
      diffRight M a b = some (some ⟨max a.lo s, a.hi⟩) ∧
      max a.lo s ≤ a.hi := by
  have hf : (M.fwd b.hi).isSome := M.fwd_isSome_of_lt hgt
  cases hfv : M.fwd b.hi with
  | none => rw [hfv] at hf; cases hf
  | some s =>
    have hsa : s ≤ a.hi := M.fwd_le hfv hgt
    have hmax : max a.lo s ≤ a.hi := max_le ha hsa
    refine ⟨s, rfl, ?_, hmax⟩
    unfold diffRight
    rw [if_pos hgt, hfv]
    simp only [hmax, if_pos]

/-- Interval::difference never panics on a valid minuend: both the
backward and forward calls are guarded, and the constructed sub-intervals
satisfy the lo ≤ hi assert. -/
theorem difference_isSome {a b : Interval α} (ha : a.lo ≤ a.hi) :
    ∃ left right, Interval.difference M a b = some (left, right) := by
  have hl : ∃ left, diffLeft M a b = some left := by
    rcases lt_or_le a.lo b.lo with h | h
    · obtain ⟨p, _, hp, _⟩ := diffLeft_eq_some ha h
      exact ⟨_, hp⟩
    · exact ⟨none, diffLeft_eq_none (not_lt.mpr h)⟩
  have hr : ∃ right, diffRight M a b = some right := by
    rcases lt_or_le b.hi a.hi with h | h
    · obtain ⟨s, _, hs, _⟩ := diffRight_eq_some ha h
      exact ⟨_, hs⟩
    · exact ⟨none, diffRight_eq_none (not_lt.mpr h)⟩
  obtain ⟨left, hleft⟩ := hl
  obtain ⟨right, hright⟩ := hr
  refine ⟨left, right, ?_⟩
  unfold Interval.difference
  rw [hleft, hright]

theorem difference_eq_some_iff {a b : Interval α}
    {left right : Option (Interval α)}
    (h : Interval.difference M a b = some (left, right)) :
    diffLeft M a b = some left ∧ diffRight M a b = some right := by
  unfold Interval.difference at h
  cases hl : diffLeft M a b with
  | none => rw [hl] at h; cases h
  | some l =>
    cases hr : diffRight M a b with
    | none => rw [hl, hr] at h; cases h
    | some r => rw [hl, hr] at h; cases h; exact ⟨rfl, rfl⟩

/-- Membership of the left part: x ∈ a and x strictly below b. -/
theorem memI_diffLeft {a b : Interval α} {lopt : Option (Interval α)}
    (ha : a.lo ≤ a.hi) (h : diffLeft M a b = some lopt) (x : α) :
    (∃ l, lopt = some l ∧ memI x l) ↔ memI x a ∧ x < b.lo := by
  rcases lt_or_le a.lo b.lo with hlt | hge
  · obtain ⟨p, hp, heq, _⟩ := diffLeft_eq_some (M := M) ha hlt
    rw [h] at heq
    cases heq
    constructor
    · rintro ⟨l, hl, hml⟩
      cases hl
      obtain ⟨h1, h2⟩ := hml
      have h2' : x ≤ a.hi ∧ x ≤ p := le_min_iff.mp h2
      exact ⟨⟨h1, h2'.1⟩, (M.bwd_le_iff hp).mp h2'.2⟩
    · rintro ⟨⟨h1, h2⟩, h3⟩
      exact ⟨_, rfl, h1, le_min h2 ((M.bwd_le_iff hp).mpr h3)⟩
  · rw [diffLeft_eq_none (not_lt.mpr hge)] at h
    cases h
    constructor
    · rintro ⟨l, hl, _⟩; cases hl
    · rintro ⟨⟨h1, _⟩, h3⟩
      exact absurd (lt_of_le_of_lt h1 h3) (not_lt.mpr hge)

/-- Membership of the right part: x ∈ a and x strictly above b. -/
theorem memI_diffRight {a b : Interval α} {ropt : Option (Interval α)}
    (ha : a.lo ≤ a.hi) (h : diffRight M a b = some ropt) (x : α) :
    (∃ r, ropt = some r ∧ memI x r) ↔ memI x a ∧ b.hi < x := by
  rcases lt_or_le b.hi a.hi with hgt | hge
  · obtain ⟨s, hs, heq, _⟩ := diffRight_eq_some (M := M) ha hgt
    rw [h] at heq
    cases heq
    constructor
    · rintro ⟨r, hr, hmr⟩
      cases hr
      obtain ⟨h1, h2⟩ := hmr
      have h1' : a.lo ≤ x ∧ s ≤ x := max_le_iff.mp h1
      exact ⟨⟨h1'.1, h2⟩, (M.fwd_le_iff hs).mp h1'.2⟩
    · rintro ⟨⟨h1, h2⟩, h3⟩
      exact ⟨_, rfl, max_le h1 ((M.fwd_le_iff hs).mpr h3), h2⟩
  · rw [diffRight_eq_none (not_lt.mpr hge)] at h
    cases h
    constructor
    · rintro ⟨r, hr, _⟩; cases hr
    · rintro ⟨⟨_, h2⟩, h3⟩
      exact absurd (lt_of_lt_of_le h3 h2) (not_lt.mpr hge)

end Interval

open Interval

/-- Membership in a list of intervals (the logical membership of an
IntervalSet whose interval vector is the list). -/
def memS (x : α) (l : List (Interval α)) : Prop := ∃ i ∈ l, memI x i

instance (x : α) (l : List (Interval α)) : Decidable (memS x l) := by
  unfold memS; infer_instance

/-- Adjacency-free separation between two intervals: the successor of the
earlier upper bound exists and is strictly below the later lower bound.
This is the consecutive-pair condition of the canonical form. -/
def Sep (M : StepModel α) (a b : Interval α) : Prop :=
  match M.fwd a.hi with
  | some s => s < b.lo
  | none => False

instance (M : StepModel α) (a b : Interval α) : Decidable (Sep M a b) := by
  unfold Sep
  cases M.fwd a.hi with
  | none => exact isFalse id
  | some s => exact inferInstanceAs (Decidable (s < b.lo))

theorem Sep.intro {M : StepModel α} {a b : Interval α} {s : α}
    (h : M.fwd a.hi = some s) (hs : s < b.lo) : Sep M a b := by
  unfold Sep; rw [h]; exact hs

theorem Sep.elim {M : StepModel α} {a b : Interval α} (h : Sep M a b) :
    ∃ s, M.fwd a.hi = some s ∧ s < b.lo := by
  unfold Sep at h
  cases hf : M.fwd a.hi with
  | none => rw [hf] at h; exact absurd h id
  | some s => rw [hf] at h; exact ⟨s, rfl, h⟩

/-- Consecutive-pair canonicity of an interval list. -/
def ChainSep (M : StepModel α) : List (Interval α) → Prop
  | [] => True
  | [_] => True
  | a :: b :: l => Sep M a b ∧ ChainSep M (b :: l)

def decChainSep (M : StepModel α) :
    (l : List (Interval α)) → Decidable (ChainSep M l)
  | [] => isTrue trivial
  | [_] => isTrue trivial
  | a :: b :: l =>
    @instDecidableAnd _ _ (inferInstance) (decChainSep M (b :: l))

instance (M : StepModel α) (l : List (Interval α)) :
    Decidable (ChainSep M l) := decChainSep M l

/-- The canonical-form invariant of IntervalSet (src/set.rs): every stored
interval is valid (lo ≤ hi) and consecutive intervals are strictly
separated (sorted, non-overlapping, non-adjacent). -/
def canonical (M : StepModel α) (l : List (Interval α)) : Prop :=
  (∀ i ∈ l, i.lo ≤ i.hi) ∧ ChainSep M l

instance (M : StepModel α) (l : List (Interval α)) :
    Decidable (canonical M l) := by
  unfold canonical; infer_instance

/-- Structural (fuel-indexed) form of the ordered two-way merge; the fuel
only drives termination and is irrelevant once it bounds the combined
length (see mergeByLo_cons_cons below for the source-shaped equation). -/
def mergeF : ℕ → List (Interval α) → List (Interval α) → List (Interval α)
  | _, [], r => r
  | _, l, [] => l
  | 0, l, _ => l
  | n + 1, a :: l, b :: r =>
    if a.lo ≤ b.lo then a :: mergeF n l (b :: r)
    else b :: mergeF n (a :: l) r

/-- The ordered-merge primitive (MergeIter of src/set.rs with the
lower-bound comparator; ties favour the left sequence). -/
def mergeByLo (l r : List (Interval α)) : List (Interval α) :=
  mergeF (l.length + r.length) l r

theorem mergeF_fuel : ∀ (n m : ℕ) (l r : List (Interval α)),
    l.length + r.length ≤ n → l.length + r.length ≤ m →
    mergeF n l r = mergeF m l r := by
  intro n
  induction n with
  | zero =>
    intro m l r hn _
    match l, r with
    | [], r => cases r <;> cases m <;> rfl
    | a :: l, r => simp at hn
  | succ n ih =>
    intro m l r hn hm
    match l, r with
    | [], r => cases r <;> cases m <;> rfl
    | a :: l, [] => cases m <;> rfl
    | a :: l, b :: r =>
      match m with
      | 0 => simp at hm
      | m + 1 =>
        show (if a.lo ≤ b.lo then a :: mergeF n l (b :: r)
              else b :: mergeF n (a :: l) r) =
            (if a.lo ≤ b.lo then a :: mergeF m l (b :: r)
              else b :: mergeF m (a :: l) r)
        simp only [List.length_cons] at hn hm
        rcases le_or_lt a.lo b.lo with h | h
        · rw [if_pos h, if_pos h,
            ih m l (b :: r) (by simp; omega) (by simp; omega)]
        · rw [if_neg (not_le.mpr h), if_neg (not_le.mpr h),
            ih m (a :: l) r (by simp; omega) (by simp; omega)]

theorem mergeByLo_nil_left (r : List (Interval α)) : mergeByLo [] r = r := by
  unfold mergeByLo; cases r <;> rfl

theorem mergeByLo_nil_right (l : List (Interval α)) : mergeByLo l [] = l := by
  unfold mergeByLo; cases l <;> rfl

theorem mergeByLo_cons_cons (a b : Interval α) (l r : List (Interval α)) :
    mergeByLo (a :: l) (b :: r) =
      if a.lo ≤ b.lo then a :: mergeByLo l (b :: r)
      else b :: mergeByLo (a :: l) r := by
  unfold mergeByLo
  show (if a.lo ≤ b.lo
      then a :: mergeF ((a :: l).length + (b :: r).length - 1) l (b :: r)
      else b :: mergeF ((a :: l).length + (b :: r).length - 1) (a :: l) r) = _
  rcases le_or_lt a.lo b.lo with h | h
  · rw [if_pos h, if_pos h,
      mergeF_fuel _ (l.length + (b :: r).length) l (b :: r)
        (by simp only [List.length_cons]; omega)
        (by simp only [List.length_cons]; omega)]
  · rw [if_neg (not_le.mpr h), if_neg (not_le.mpr h),
      mergeF_fuel _ ((a :: l).length + r.length) (a :: l) r
        (by simp only [List.length_cons]; omega)
        (by simp only [List.length_cons]; omega)]

/-- The fold of IntervalSet::union (src/set.rs): prev is the running
candidate; none is the panicking execution (Step::forward called at the
type maximum). -/
def unionGo (M : StepModel α) (prev : Interval α) :
    List (Interval α) → Option (List (Interval α))
  | [] => some [prev]
  | i :: rest =>
    match M.fwd prev.hi with
    | none => none
    | some s =>
      if i.lo ≤ s then unionGo M (prev.hull i) rest
      else (unionGo M i rest).map fun out => prev :: out

/-- IntervalSet::union (src/set.rs). -/
def union (M : StepModel α) (A B : List (Interval α)) :
    Option (List (Interval α)) :=
  match mergeByLo A B with
  | [] => some []
  | p :: rest => unionGo M p rest

/-- IntervalSet::insert (src/set.rs): union with a one-interval set. -/
def insert (M : StepModel α) (A : List (Interval α)) (i : Interval α) :
    Option (List (Interval α)) :=
  union M A [i]

/-- The fold of IntervalSet::intersection (src/set.rs): emit the overlap
of prev and the next interval when non-empty, and advance prev to the
interval with the larger upper bound. -/
def interGo (prev : Interval α) : List (Interval α) → List (Interval α)
  | [] => []
  | i :: rest =>
    if i.lo ≤ prev.hi then
      match Interval.intersection prev i with
      | some e =>
        e :: (if prev.hi < i.hi then interGo i rest else interGo prev rest)
      | none => if prev.hi < i.hi then interGo i rest else interGo prev rest
    else interGo i rest

/-- IntervalSet::intersection (src/set.rs). -/
def intersection (A B : List (Interval α)) : List (Interval α) :=
  match mergeByLo A B with
  | [] => []
  | p :: rest => interGo p rest

/-- Assembling one loop iteration of IntervalSet::difference: push the
left part (when present) in front of the rest of the computation; none
propagates a panic. -/
def diffCombine (left : Option (Interval α))
    (tail : Option (List (Interval α))) : Option (List (Interval α)) :=
  match left, tail with
  | _, none => none
  | some l, some t => some (l :: t)
  | none, some t => some t

/-- Structural (fuel-indexed) form of the IntervalSet::difference loop;
the fuel only drives termination (see diffGo_cons below for the
source-shaped equation). -/
def diffF (M : StepModel α) :
    ℕ → Interval α → List (Interval α) → List (Interval α) →
      Option (List (Interval α))
  | _, a, arest, [] => some (a :: arest)
  | 0, a, arest, _ :: _ => some (a :: arest)
  | n + 1, a, arest, b :: brest =>
    match Interval.difference M a b with
    | none => none
    | some (left, some r) => diffCombine left (diffF M n r arest brest)
    | some (left, none) =>
      match arest with
      | [] => diffCombine left (some [])
      | a1 :: arest1 => diffCombine left (diffF M n a1 arest1 (b :: brest))

/-- The loop of IntervalSet::difference (src/set.rs): a is the current
minuend interval, arest the rest of the minuend, bs the remaining
subtrahend; none is a panicking execution inside Interval::difference. -/
def diffGo (M : StepModel α) (a : Interval α) (arest bs : List (Interval α)) :
    Option (List (Interval α)) :=
  diffF M (arest.length + bs.length) a arest bs

theorem diffF_succ_cons (M : StepModel α) (n : ℕ) (a : Interval α)
    (arest : List (Interval α)) (b : Interval α)
    (brest : List (Interval α)) :
    diffF M (n + 1) a arest (b :: brest) =
      match Interval.difference M a b with
      | none => none
      | some (left, some r) => diffCombine left (diffF M n r arest brest)
      | some (left, none) =>
        match arest with
        | [] => diffCombine left (some [])
        | a1 :: arest1 =>
          diffCombine left (diffF M n a1 arest1 (b :: brest)) := rfl

theorem diffF_fuel (M : StepModel α) : ∀ (n m : ℕ) (a : Interval α)
    (arest bs : List (Interval α)),
    arest.length + bs.length ≤ n → arest.length + bs.length ≤ m →
    diffF M n a arest bs = diffF M m a arest bs := by
  intro n
  induction n with
  | zero =>
    intro m a arest bs hn _
    match bs with
    | [] => cases m <;> rfl
    | b :: brest => simp at hn
  | succ n ih =>
    intro m a arest bs hn hm
    match bs with
    | [] => cases m <;> rfl
    | b :: brest =>
      match m with
      | 0 => simp at hm
      | m + 1 =>
        rw [diffF_succ_cons, diffF_succ_cons]
        simp only [List.length_cons] at hn hm
        cases Interval.difference M a b with
        | none => rfl
        | some lr =>
          obtain ⟨left, right⟩ := lr
          cases right with
          | some r =>
            dsimp only
            rw [ih m r arest brest (by omega) (by omega)]
          | none =>
            cases arest with
            | nil => rfl
            | cons a1 arest1 =>
              dsimp only
              rw [ih m a1 arest1 (b :: brest)
                (by simp only [List.length_cons] at hn ⊢; omega)
                (by simp only [List.length_cons] at hm ⊢; omega)]

theorem diffGo_nil (M : StepModel α) (a : Interval α)
    (arest : List (Interval α)) : diffGo M a arest [] = some (a :: arest) := by
  unfold diffGo
  cases arest <;> rfl

theorem diffGo_cons (M : StepModel α) (a : Interval α)
    (arest : List (Interval α)) (b : Interval α) (brest : List (Interval α)) :
    diffGo M a arest (b :: brest) =
      match Interval.difference M a b with
      | none => none
      | some (left, some r) => diffCombine left (diffGo M r arest brest)
      | some (left, none) =>
        match arest with
        | [] => diffCombine left (some [])
        | a1 :: arest1 =>
          diffCombine left (diffGo M a1 arest1 (b :: brest)) := by
  have hred : diffGo M a arest (b :: brest) =
      diffF M (arest.length + brest.length + 1) a arest (b :: brest) := by
    unfold diffGo
    apply diffF_fuel <;> simp only [List.length_cons] <;> omega
  rw [hred, diffF_succ_cons]
  cases Interval.difference M a b with
  | none => rfl
  | some lr =>
    obtain ⟨left, right⟩ := lr
    cases right with
    | some r => rfl
    | none =>
      cases arest with
      | nil => rfl
      | cons a1 arest1 =>
        have hre : diffF M ((a1 :: arest1).length + brest.length) a1 arest1
            (b :: brest) = diffGo M a1 arest1 (b :: brest) := by
          unfold diffGo
          apply diffF_fuel <;> simp only [List.length_cons] <;> omega
        dsimp only
        rw [hre]

/-- IntervalSet::difference (src/set.rs). -/
def difference (M : StepModel α) (A B : List (Interval α)) :
    Option (List (Interval α)) :=
  match A with
  | [] => some []
  | a :: arest => diffGo M a arest B

/-- IntervalSet::complement (src/set.rs): full().difference(self), where
full() is the interval [MIN, MAX] of the Bounded index type. -/
def complement (M : StepModel α) (MIN MAX : α) (A : List (Interval α)) :
    Option (List (Interval α)) :=
  difference M [⟨MIN, MAX⟩] A

/-- IntervalSet::empty (src/set.rs). -/
def empty : List (Interval α) := []

/-- Sortedness by lower bound, the order maintained by the merge. -/
def LoSorted (l : List (Interval α)) : Prop :=
  List.Pairwise (fun p q : Interval α => p.lo ≤ q.lo) l

theorem memS_nil (x : α) : ¬ memS x ([] : List (Interval α)) := by
  rintro ⟨i, hi, _⟩
  cases hi

theorem memS_cons {x : α} {i : Interval α} {l : List (Interval α)} :
    memS x (i :: l) ↔ memI x i ∨ memS x l := by
  unfold memS
  simp only [List.mem_cons]
  constructor
  · rintro ⟨j, hj | hj, hm⟩
    · cases hj; exact Or.inl hm
    · exact Or.inr ⟨j, hj, hm⟩
  · rintro (h | ⟨j, hj, hm⟩)
    · exact ⟨i, Or.inl rfl, h⟩
    · exact ⟨j, Or.inr hj, hm⟩

theorem mergeByLo_perm (l r : List (Interval α)) :
    (mergeByLo l r).Perm (l ++ r) := by
  generalize h : l.length + r.length = n
  induction n generalizing l r with
  | zero =>
    match l, r with
    | [], [] => simp [mergeByLo_nil_left]
    | [], _ :: _ => simp at h
    | _ :: _, _ => simp at h
  | succ n ih =>
    match l, r with
    | [], r => simp [mergeByLo_nil_left]
    | a :: l, [] => simp [mergeByLo_nil_right]
    | a :: l, b :: r =>
      rw [mergeByLo_cons_cons]
      split
      · have := ih l (b :: r) (by simp at h ⊢; omega)
        simpa using this.cons a
      · have := (ih (a :: l) r (by simp at h ⊢; omega)).cons b
        refine this.trans ?_
        have hm : ((a :: l) ++ b :: r).Perm (b :: (a :: l ++ r)) :=
          List.perm_middle
        exact hm.symm

theorem mem_mergeByLo {i : Interval α} {l r : List (Interval α)} :
    i ∈ mergeByLo l r ↔ i ∈ l ∨ i ∈ r := by
  rw [(mergeByLo_perm l r).mem_iff, List.mem_append]

theorem mergeByLo_sorted {l r : List (Interval α)} (hl : LoSorted l)
    (hr : LoSorted r) : LoSorted (mergeByLo l r) := by
  generalize h : l.length + r.length = n
  induction n generalizing l r with
  | zero =>
    match l, r with
    | [], [] => simpa [mergeByLo_nil_left] using hr
    | [], _ :: _ => simp at h
    | _ :: _, _ => simp at h
  | succ n ih =>
    match l, r with
    | [], r => simpa [mergeByLo_nil_left] using hr
    | a :: l, [] => simpa [mergeByLo_nil_right] using hl
    | a :: l, b :: r =>
      rw [mergeByLo_cons_cons]
      obtain ⟨ha, hl'⟩ := List.pairwise_cons.mp hl
      obtain ⟨hb, hr'⟩ := List.pairwise_cons.mp hr
      split
      · rename_i hab
        refine List.pairwise_cons.mpr ⟨?_, ih hl' hr (by simp at h ⊢; omega)⟩
        intro j hj
        rcases mem_mergeByLo.mp hj with hj | hj
        · exact ha j hj
        · rcases List.mem_cons.mp hj with hj | hj
          · cases hj; exact hab
          · exact le_trans hab (hb j hj)
      · rename_i hab
        have hba : b.lo ≤ a.lo := le_of_lt (not_le.mp hab)
        refine List.pairwise_cons.mpr ⟨?_, ih hl hr' (by simp at h ⊢; omega)⟩
        intro j hj
        rcases mem_mergeByLo.mp hj with hj | hj
        · rcases List.mem_cons.mp hj with hj | hj
          · cases hj; exact hba
          · exact le_trans hba (ha j hj)
        · exact hb j hj

/-- A length-2 sublist of a merge comes from one list in order, or picks
one element of each (in either order). -/
theorem sublist_pair_mergeByLo {x y : Interval α} :
    ∀ {l r : List (Interval α)}, List.Sublist [x, y] (mergeByLo l r) →
      List.Sublist [x, y] l ∨ List.Sublist [x, y] r ∨
        (x ∈ l ∧ y ∈ r) ∨ (x ∈ r ∧ y ∈ l) := by
  intro l r
  generalize h : l.length + r.length = n
  induction n generalizing l r with
  | zero =>
    match l, r with
    | [], [] => rw [mergeByLo_nil_left]; exact fun hs => Or.inl hs
    | [], _ :: _ => simp at h
    | _ :: _, _ => simp at h
  | succ n ih =>
    match l, r with
    | [], r => rw [mergeByLo_nil_left]; exact fun hs => Or.inr (Or.inl hs)
    | a :: l, [] => rw [mergeByLo_nil_right]; exact fun hs => Or.inl hs
    | a :: l, b :: r =>
      rw [mergeByLo_cons_cons]
      split
      · intro hs
        cases hs with
        | cons _ hs' =>
          rcases ih (l := l) (r := b :: r) (by simp at h ⊢; omega) hs' with
            hc | hc | ⟨h1, h2⟩ | ⟨h1, h2⟩
          · exact Or.inl (hc.cons a)
          · exact Or.inr (Or.inl hc)
          · exact Or.inr (Or.inr (Or.inl ⟨List.mem_cons_of_mem a h1, h2⟩))
          · exact Or.inr (Or.inr (Or.inr ⟨h1, List.mem_cons_of_mem a h2⟩))
        | cons₂ _ hs' =>
          have hy : y ∈ mergeByLo l (b :: r) := List.singleton_sublist.mp hs'
          rcases mem_mergeByLo.mp hy with hy | hy
          · exact Or.inl (List.Sublist.cons₂ x (List.singleton_sublist.mpr hy))
          · exact Or.inr (Or.inr (Or.inl ⟨List.mem_cons_self x l, hy⟩))
      · intro hs
        cases hs with
        | cons _ hs' =>
          rcases ih (l := a :: l) (r := r) (by simp at h ⊢; omega) hs' with
            hc | hc | ⟨h1, h2⟩ | ⟨h1, h2⟩
          · exact Or.inl hc
          · exact Or.inr (Or.inl (hc.cons b))
          · exact Or.inr (Or.inr (Or.inl ⟨h1, List.mem_cons_of_mem b h2⟩))
          · exact Or.inr (Or.inr (Or.inr ⟨List.mem_cons_of_mem b h1, h2⟩))
        | cons₂ _ hs' =>
          have hy : y ∈ mergeByLo (a :: l) r := List.singleton_sublist.mp hs'
          rcases mem_mergeByLo.mp hy with hy | hy
          · exact Or.inr (Or.inr (Or.inr ⟨List.mem_cons_self x r, hy⟩))
          · exact Or.inr (Or.inl (List.Sublist.cons₂ x
              (List.singleton_sublist.mpr hy)))

theorem pair_sublist_left (x y z : Interval α) :
    List.Sublist [x, y] [x, y, z] :=
  List.Sublist.cons₂ x (List.Sublist.cons₂ y (List.nil_sublist [z]))

theorem pair_sublist_outer (x y z : Interval α) :
    List.Sublist [x, z] [x, y, z] :=
  List.Sublist.cons₂ x (List.Sublist.cons y (List.Sublist.refl [z]))

theorem pair_sublist_right (x y z : Interval α) :
    List.Sublist [y, z] [x, y, z] :=
  List.Sublist.cons x (List.Sublist.refl [y, z])

/-- A length-3 sublist of a merge always contains a length-2 sublist of
one of the two merged lists (pigeonhole on the three occurrences). -/
theorem sublist_triple_mergeByLo {x y z : Interval α} :
    ∀ {l r : List (Interval α)}, List.Sublist [x, y, z] (mergeByLo l r) →
      (List.Sublist [x, y] l ∨ List.Sublist [x, y] r) ∨
      (List.Sublist [x, z] l ∨ List.Sublist [x, z] r) ∨
      (List.Sublist [y, z] l ∨ List.Sublist [y, z] r) := by
  intro l r
  generalize h : l.length + r.length = n
  induction n generalizing l r with
  | zero =>
    match l, r with
    | [], [] =>
      rw [mergeByLo_nil_left]
      exact fun hs => Or.inl (Or.inl ((pair_sublist_left x y z).trans hs))
    | [], _ :: _ => simp at h
    | _ :: _, _ => simp at h
  | succ n ih =>
    match l, r with
    | [], r =>
      rw [mergeByLo_nil_left]
      exact fun hs =>
        Or.inl (Or.inr ((pair_sublist_left x y z).trans hs))
    | a :: l, [] =>
      rw [mergeByLo_nil_right]
      exact fun hs =>
        Or.inl (Or.inl ((pair_sublist_left x y z).trans hs))
    | a :: l, b :: r =>
      rw [mergeByLo_cons_cons]
      split
      · intro hs
        cases hs with
        | cons _ hs' =>
          rcases ih (l := l) (r := b :: r) (by simp at h ⊢; omega) hs' with
            (hc | hc) | (hc | hc) | (hc | hc)
          · exact Or.inl (Or.inl (hc.cons a))
          · exact Or.inl (Or.inr hc)
          · exact Or.inr (Or.inl (Or.inl (hc.cons a)))
          · exact Or.inr (Or.inl (Or.inr hc))
          · exact Or.inr (Or.inr (Or.inl (hc.cons a)))
          · exact Or.inr (Or.inr (Or.inr hc))
        | cons₂ _ hs' =>
          rcases sublist_pair_mergeByLo hs' with hc | hc | ⟨h1, h2⟩ | ⟨h1, h2⟩
          · exact Or.inr (Or.inr (Or.inl (hc.cons x)))
          · exact Or.inr (Or.inr (Or.inr hc))
          · exact Or.inl (Or.inl
              (List.Sublist.cons₂ x (List.singleton_sublist.mpr h1)))
          · exact Or.inr (Or.inl (Or.inl
              (List.Sublist.cons₂ x (List.singleton_sublist.mpr h2))))
      · intro hs
        cases hs with
        | cons _ hs' =>
          rcases ih (l := a :: l) (r := r) (by simp at h ⊢; omega) hs' with
            (hc | hc) | (hc | hc) | (hc | hc)
          · exact Or.inl (Or.inl hc)
          · exact Or.inl (Or.inr (hc.cons b))
          · exact Or.inr (Or.inl (Or.inl hc))
          · exact Or.inr (Or.inl (Or.inr (hc.cons b)))
          · exact Or.inr (Or.inr (Or.inl hc))
          · exact Or.inr (Or.inr (Or.inr (hc.cons b)))
        | cons₂ _ hs' =>
          rcases sublist_pair_mergeByLo hs' with hc | hc | ⟨h1, h2⟩ | ⟨h1, h2⟩
          · exact Or.inr (Or.inr (Or.inl hc))
          · exact Or.inr (Or.inr (Or.inr (hc.cons x)))
          · exact Or.inr (Or.inl (Or.inr
              (List.Sublist.cons₂ x (List.singleton_sublist.mpr h2))))
          · exact Or.inl (Or.inr
              (List.Sublist.cons₂ x (List.singleton_sublist.mpr h1)))

theorem chainSep_cons {M : StepModel α} {a : Interval α}
    {l : List (Interval α)} (h : ChainSep M (a :: l)) : ChainSep M l := by
  cases l with
  | nil => trivial
  | cons b t => exact h.2

theorem chainSep_cons_cons {M : StepModel α} {a b : Interval α}
    {l : List (Interval α)} :
    ChainSep M (a :: b :: l) ↔ Sep M a b ∧ ChainSep M (b :: l) := Iff.rfl

theorem canonical_tail {M : StepModel α} {a : Interval α}
    {l : List (Interval α)} (h : canonical M (a :: l)) : canonical M l :=
  ⟨fun i hi => h.1 i (List.mem_cons_of_mem a hi), chainSep_cons h.2⟩

/-- Separation composes across a valid middle interval. -/
theorem sep_trans {M : StepModel α} {a b c : Interval α} (hab : Sep M a b)
    (hb : b.lo ≤ b.hi) (hbc : Sep M b c) : Sep M a c := by
  obtain ⟨s, hs, hsb⟩ := hab.elim
  obtain ⟨s2, hs2, hs2c⟩ := hbc.elim
  exact Sep.intro hs
    (lt_trans (lt_of_lt_of_le hsb (le_trans hb (le_of_lt (M.fwd_lt hs2))))
      hs2c)

/-- A canonical list is pairwise separated, not only consecutively. -/
theorem canonical_pairwise {M : StepModel α} :
    ∀ {l : List (Interval α)}, canonical M l → List.Pairwise (Sep M) l := by
  intro l
  induction l with
  | nil => intro _; exact List.Pairwise.nil
  | cons a t ih =>
    intro h
    have ht : List.Pairwise (Sep M) t := ih (canonical_tail h)
    refine List.pairwise_cons.mpr ⟨?_, ht⟩
    intro c hc
    cases t with
    | nil => cases hc
    | cons b t' =>
      have hab : Sep M a b := h.2.1
      rcases List.mem_cons.mp hc with hcb | hct
      · cases hcb; exact hab
      · have hbvalid : b.lo ≤ b.hi := h.1 b (by simp)
        have hbc : Sep M b c :=
          (List.pairwise_cons.mp ht).1 c hct
        exact sep_trans hab hbvalid hbc

theorem sep_lo_le {M : StepModel α} {a b : Interval α} (h : Sep M a b)
    (ha : a.lo ≤ a.hi) : a.lo ≤ b.lo := by
  obtain ⟨s, hs, hsb⟩ := h.elim
  exact le_of_lt (lt_of_le_of_lt (le_trans ha (le_of_lt (M.fwd_lt hs))) hsb)

theorem canonical_sorted {M : StepModel α} {l : List (Interval α)}
    (h : canonical M l) : LoSorted l := by
  refine (canonical_pairwise h).imp_of_mem ?_
  intro a b ha _ hab
  exact sep_lo_le hab (h.1 a ha)

theorem canonical_hi_lt_lo {M : StepModel α} {a b : Interval α}
    (h : Sep M a b) : a.hi < b.lo := by
  obtain ⟨s, hs, hsb⟩ := h.elim
  exact lt_trans (M.fwd_lt hs) hsb

/-- The three-point separation invariant of a merged stream of two
canonical lists: for any three elements in stream order, the successor of
the smaller of the first two upper bounds exists and sits strictly below
the third lower bound. -/
def Trip (M : StepModel α) (l : List (Interval α)) : Prop :=
  ∀ ⦃a b c : Interval α⦄, List.Sublist [a, b, c] l →
    ∃ s, M.fwd (min a.hi b.hi) = some s ∧ s < c.lo

theorem Trip.sublist {M : StepModel α} {l l2 : List (Interval α)}
    (hsub : List.Sublist l2 l) (h : Trip M l) : Trip M l2 :=
  fun _ _ _ habc => h (habc.trans hsub)

theorem pairwise_of_pair_sublist {R : Interval α → Interval α → Prop}
    {x y : Interval α} {l : List (Interval α)}
    (hp : List.Pairwise R l) (hs : List.Sublist [x, y] l) : R x y :=
  (List.pairwise_cons.mp (hp.sublist hs)).1 y (by simp)

theorem trip_mergeByLo {M : StepModel α} {A B : List (Interval α)}
    (hA : canonical M A) (hB : canonical M B) :
    Trip M (mergeByLo A B) := by
  intro x y z habc
  have hsorted : LoSorted (mergeByLo A B) :=
    mergeByLo_sorted (canonical_sorted hA) (canonical_sorted hB)
  have hyz_lo : y.lo ≤ z.lo :=
    pairwise_of_pair_sublist hsorted ((pair_sublist_right x y z).trans habc)
  have hpwA := canonical_pairwise hA
  have hpwB := canonical_pairwise hB
  -- the case of a pair (u, v) with Sep u v where v.hi participates
  have hcase_xy : ∀ {C : List (Interval α)}, canonical M C →
      List.Sublist [x, y] C → ∃ s, M.fwd (min x.hi y.hi) = some s ∧
        s < z.lo := by
    intro C hC hsC
    have hsep : Sep M x y := pairwise_of_pair_sublist (canonical_pairwise hC) hsC
    obtain ⟨s, hs, hsy⟩ := hsep.elim
    have hyv : y.lo ≤ y.hi := hC.1 y (hsC.subset (by simp))
    have hmin : min x.hi y.hi = x.hi :=
      min_eq_left (le_of_lt (lt_of_lt_of_le (canonical_hi_lt_lo hsep) hyv))
    exact ⟨s, by rw [hmin]; exact hs, lt_of_lt_of_le hsy hyz_lo⟩
  have hcase_snd : ∀ {C : List (Interval α)} {u : Interval α},
      canonical M C → List.Sublist [u, z] C → min x.hi y.hi ≤ u.hi →
      ∃ s, M.fwd (min x.hi y.hi) = some s ∧ s < z.lo := by
    intro C u hC hsC hle
    have hsep : Sep M u z := pairwise_of_pair_sublist (canonical_pairwise hC) hsC
    obtain ⟨s, hs, hsz⟩ := hsep.elim
    obtain ⟨s2, hs2, hs2s⟩ := M.fwd_mono hle hs
    exact ⟨s2, hs2, lt_of_le_of_lt hs2s hsz⟩
  rcases sublist_triple_mergeByLo habc with (hc | hc) | (hc | hc) | (hc | hc)
  · exact hcase_xy hA hc
  · exact hcase_xy hB hc
  · exact hcase_snd hA hc (min_le_left _ _)
  · exact hcase_snd hB hc (min_le_left _ _)
  · exact hcase_snd hA hc (min_le_right _ _)
  · exact hcase_snd hB hc (min_le_right _ _)

theorem memS_mergeByLo {x : α} {A B : List (Interval α)} :
    memS x (mergeByLo A B) ↔ memS x A ∨ memS x B := by
  unfold memS
  constructor
  · rintro ⟨i, hi, hm⟩
    rcases mem_mergeByLo.mp hi with hi | hi
    · exact Or.inl ⟨i, hi, hm⟩
    · exact Or.inr ⟨i, hi, hm⟩
  · rintro (⟨i, hi, hm⟩ | ⟨i, hi, hm⟩) <;>
      exact ⟨i, mem_mergeByLo.mpr (by tauto), hm⟩

/-- Membership correctness of the union fold over a lower-bound-sorted
stream: whenever the fold completes, its output covers exactly the
candidate and the remaining stream. -/
theorem unionGo_mem {M : StepModel α} :
    ∀ {prev : Interval α} {rest out : List (Interval α)},
      (∀ i ∈ rest, prev.lo ≤ i.lo) → LoSorted rest →
      unionGo M prev rest = some out → ∀ x,
      (memS x out ↔ memI x prev ∨ memS x rest) := by
  intro prev rest
  induction rest generalizing prev with
  | nil =>
    intro out _ _ h x
    cases h
    rw [memS_cons]
  | cons i rest ih =>
    intro out hsort hsorted h x
    unfold unionGo at h
    cases hf : M.fwd prev.hi with
    | none => rw [hf] at h; cases h
    | some s =>
      rw [hf] at h
      dsimp only at h
      have hlo : prev.lo ≤ i.lo := hsort i (by simp)
      by_cases hle : i.lo ≤ s
      · rw [if_pos hle] at h
        have hsort2 : ∀ j ∈ rest, (prev.hull i).lo ≤ j.lo := by
          intro j hj
          show min prev.lo i.lo ≤ j.lo
          rw [min_eq_left hlo]
          exact hsort j (by simp [hj])
        have := ih hsort2 (List.pairwise_cons.mp hsorted).2 h x
        rw [this, memI_hull_iff hf hle hlo, memS_cons]
        tauto
      · rw [if_neg hle] at h
        cases hu : unionGo M i rest with
        | none => rw [hu] at h; cases h
        | some out2 =>
          rw [hu] at h
          cases h
          have hsort2 : ∀ j ∈ rest, i.lo ≤ j.lo :=
            (List.pairwise_cons.mp hsorted).1
          have := ih hsort2 (List.pairwise_cons.mp hsorted).2 hu x
          rw [memS_cons, this, memS_cons]

/-- Canonicity of the union fold output, with the head lower bound
preserved. -/
theorem unionGo_canonical {M : StepModel α} :
    ∀ {prev : Interval α} {rest out : List (Interval α)},
      prev.lo ≤ prev.hi → (∀ i ∈ rest, i.lo ≤ i.hi) →
      (∀ i ∈ rest, prev.lo ≤ i.lo) → LoSorted rest →
      unionGo M prev rest = some out →
      canonical M out ∧ ∃ h t, out = h :: t ∧ h.lo = prev.lo := by
  intro prev rest
  induction rest generalizing prev with
  | nil =>
    intro out hval _ _ _ h
    cases h
    exact ⟨⟨by simpa using hval, trivial⟩, prev, [], rfl, rfl⟩
  | cons i rest ih =>
    intro out hval hvals hsort hsorted h
    unfold unionGo at h
    cases hf : M.fwd prev.hi with
    | none => rw [hf] at h; cases h
    | some s =>
      rw [hf] at h
      dsimp only at h
      have hlo : prev.lo ≤ i.lo := hsort i (by simp)
      by_cases hle : i.lo ≤ s
      · rw [if_pos hle] at h
        have hhullval : (prev.hull i).lo ≤ (prev.hull i).hi := by
          show min prev.lo i.lo ≤ max prev.hi i.hi
          exact le_trans (min_le_left _ _) (le_trans hval (le_max_left _ _))
        have hhulllo : (prev.hull i).lo = prev.lo := min_eq_left hlo
        have hsort2 : ∀ j ∈ rest, (prev.hull i).lo ≤ j.lo := by
          intro j hj
          rw [hhulllo]
          exact hsort j (by simp [hj])
        obtain ⟨hcan, hh, ht, hout, hhlo⟩ :=
          ih hhullval (fun j hj => hvals j (by simp [hj])) hsort2
            (List.pairwise_cons.mp hsorted).2 h
        exact ⟨hcan, hh, ht, hout, by rw [hhlo, hhulllo]⟩
      · rw [if_neg hle] at h
        cases hu : unionGo M i rest with
        | none => rw [hu] at h; cases h
        | some out2 =>
          rw [hu] at h
          cases h
          obtain ⟨hcan, hh, ht, hout, hhlo⟩ :=
            ih (hvals i (by simp)) (fun j hj => hvals j (by simp [hj]))
              (List.pairwise_cons.mp hsorted).1
              (List.pairwise_cons.mp hsorted).2 hu
          subst hout
          refine ⟨⟨?_, ?_⟩, prev, hh :: ht, rfl, rfl⟩
          · intro j hj
            rcases List.mem_cons.mp hj with hj | hj
            · cases hj; exact hval
            · exact hcan.1 j hj
          · refine chainSep_cons_cons.mpr ⟨?_, hcan.2⟩
            exact Sep.intro hf (by rw [hhlo]; exact not_le.mp hle)

/-- The union fold completes whenever every stream element that has a
later companion has a steppable upper bound. -/
theorem unionGo_isSome {M : StepModel α} :
    ∀ {prev : Interval α} {rest : List (Interval α)},
      (∀ j k, List.Sublist [j, k] (prev :: rest) → (M.fwd j.hi).isSome) →
      ∃ out, unionGo M prev rest = some out := by
  intro prev rest
  induction rest generalizing prev with
  | nil => exact fun _ => ⟨[prev], rfl⟩
  | cons i rest ih =>
    intro hpairs
    have hf : (M.fwd prev.hi).isSome := by
      refine hpairs prev i ?_
      exact List.Sublist.cons₂ prev
        (List.Sublist.cons₂ i (List.nil_sublist rest))
    cases hfv : M.fwd prev.hi with
    | none => rw [hfv] at hf; cases hf
    | some s =>
      unfold unionGo
      rw [hfv]
      dsimp only
      by_cases hle : i.lo ≤ s
      · rw [if_pos hle]
        refine ih ?_
        intro j k hs
        cases hs with
        | cons _ hs' =>
          exact hpairs j k (hs'.trans
            ((List.sublist_cons_self i rest).trans
              (List.sublist_cons_self prev (i :: rest))))
        | cons₂ _ hs' =>
          -- j is the hull: its upper bound is that of prev or of i
          have hk : k ∈ rest := List.singleton_sublist.mp hs'
          show (M.fwd (max prev.hi i.hi)).isSome
          rcases max_choice prev.hi i.hi with hmax | hmax
          · rw [hmax]
            exact hpairs prev k (List.Sublist.cons₂ prev
              (List.Sublist.cons i (List.singleton_sublist.mpr hk)))
          · rw [hmax]
            exact hpairs i k (List.Sublist.cons prev
              (List.Sublist.cons₂ i (List.singleton_sublist.mpr hk)))
      · rw [if_neg hle]
        obtain ⟨out2, hout2⟩ := ih (fun j k hs =>
          hpairs j k (hs.trans (List.sublist_cons_self prev (i :: rest))))
        exact ⟨prev :: out2, by rw [hout2]; rfl⟩

/-- On an already canonical stream the union fold is the identity. -/
theorem unionGo_canonical_id {M : StepModel α} :
    ∀ {p : Interval α} {rest : List (Interval α)},
      canonical M (p :: rest) → unionGo M p rest = some (p :: rest) := by
  intro p rest
  induction rest generalizing p with
  | nil => intro _; rfl
  | cons i rest ih =>
    intro h
    have hsep : Sep M p i := h.2.1
    obtain ⟨s, hs, hsi⟩ := hsep.elim
    unfold unionGo
    rw [hs]
    dsimp only
    rw [if_neg (not_le.mpr hsi), ih (canonical_tail h)]
    rfl

/-- Membership correctness of IntervalSet::union, conditional on the call
returning (it panics when the adjacency test steps the type maximum). -/
theorem union_mem {M : StepModel α} {A B S : List (Interval α)}
    (hA : LoSorted A) (hB : LoSorted B) (h : union M A B = some S) (x : α) :
    memS x S ↔ memS x A ∨ memS x B := by
  unfold union at h
  rw [← memS_mergeByLo (A := A) (B := B)]
  cases hm : mergeByLo A B with
  | nil =>
    rw [hm] at h
    cases h
    rfl
  | cons p rest =>
    rw [hm] at h
    dsimp only at h
    have hsorted : LoSorted (p :: rest) := by
      rw [← hm]; exact mergeByLo_sorted hA hB
    rw [memS_cons]
    exact unionGo_mem (List.pairwise_cons.mp hsorted).1
      (List.pairwise_cons.mp hsorted).2 h x

/-- Canonicity of the union result, conditional on the call returning. -/
theorem union_canonical {M : StepModel α} {A B S : List (Interval α)}
    (hA : canonical M A) (hB : canonical M B) (h : union M A B = some S) :
    canonical M S := by
  unfold union at h
  cases hm : mergeByLo A B with
  | nil => rw [hm] at h; cases h; exact ⟨by simp, trivial⟩
  | cons p rest =>
    rw [hm] at h
    dsimp only at h
    have hsorted : LoSorted (p :: rest) := by
      rw [← hm]; exact mergeByLo_sorted (canonical_sorted hA)
        (canonical_sorted hB)
    have hvalid : ∀ i ∈ p :: rest, i.lo ≤ i.hi := by
      intro i hi
      rw [← hm] at hi
      rcases mem_mergeByLo.mp hi with hi | hi
      · exact hA.1 i hi
      · exact hB.1 i hi
    exact (unionGo_canonical (hvalid p (by simp))
      (fun i hi => hvalid i (by simp [hi]))
      (List.pairwise_cons.mp hsorted).1
      (List.pairwise_cons.mp hsorted).2 h).1

/-- The union completes whenever no input interval has an unsteppable
(maximal) upper bound. -/
theorem union_isSome {M : StepModel α} {A B : List (Interval α)}
    (hA : ∀ i ∈ A, (M.fwd i.hi).isSome)
    (hB : ∀ i ∈ B, (M.fwd i.hi).isSome) :
    ∃ S, union M A B = some S := by
  unfold union
  cases hm : mergeByLo A B with
  | nil => exact ⟨[], rfl⟩
  | cons p rest =>
    refine unionGo_isSome ?_
    intro j k hs
    have hj : j ∈ p :: rest := hs.subset (by simp)
    rw [← hm] at hj
    rcases mem_mergeByLo.mp hj with hj | hj
    · exact hA j hj
    · exact hB j hj

/-- The empty set is a right identity of union, with no panic. -/
theorem union_empty_right {M : StepModel α} {A : List (Interval α)}
    (hA : canonical M A) : union M A [] = some A := by
  cases A with
  | nil => rfl
  | cons p rest =>
    unfold union
    rw [mergeByLo_nil_right]
    exact unionGo_canonical_id hA

/-- The empty set is a left identity of union, with no panic. -/
theorem union_empty_left {M : StepModel α} {A : List (Interval α)}
    (hA : canonical M A) : union M [] A = some A := by
  cases A with
  | nil => rfl
  | cons p rest =>
    unfold union
    rw [mergeByLo_nil_left]
    exact unionGo_canonical_id hA

/-- x lies in (at least) two different positions of the list. -/
def TwoMem (x : α) : List (Interval α) → Prop
  | [] => False
  | i :: rest => (memI x i ∧ memS x rest) ∨ TwoMem x rest

theorem memS_iff_countP {x : α} {l : List (Interval α)} :
    memS x l ↔ 0 < l.countP fun i => decide (memI x i) := by
  rw [List.countP_pos_iff]
  unfold memS
  simp

theorem countP_cons_true {x : α} {i : Interval α}
    {rest : List (Interval α)} (hm : memI x i) :
    ((i :: rest).countP fun j => decide (memI x j)) =
      (rest.countP fun j => decide (memI x j)) + 1 := by
  rw [List.countP_cons]
  simp [hm]

theorem countP_cons_false {x : α} {i : Interval α}
    {rest : List (Interval α)} (hm : ¬ memI x i) :
    ((i :: rest).countP fun j => decide (memI x j)) =
      rest.countP fun j => decide (memI x j) := by
  rw [List.countP_cons]
  simp [hm]

theorem twoMem_iff_countP {x : α} :
    ∀ {l : List (Interval α)},
      TwoMem x l ↔ 2 ≤ l.countP fun i => decide (memI x i) := by
  intro l
  induction l with
  | nil => simp [TwoMem]
  | cons i rest ih =>
    show (memI x i ∧ memS x rest) ∨ TwoMem x rest ↔ _
    by_cases hm : memI x i
    · rw [countP_cons_true hm, ih, memS_iff_countP]
      constructor
      · rintro (⟨_, h2⟩ | h2) <;> omega
      · intro h
        rcases Nat.lt_or_ge (rest.countP fun i => decide (memI x i)) 2 with
          hc | hc
        · exact Or.inl ⟨hm, by omega⟩
        · exact Or.inr (by omega)
    · rw [countP_cons_false hm, ih]
      constructor
      · rintro (⟨h1, _⟩ | h2)
        · exact absurd h1 hm
        · exact h2
      · exact Or.inr

/-- In a canonical list every point lies in at most one interval. -/
theorem countP_le_one_of_canonical {M : StepModel α} {x : α} :
    ∀ {l : List (Interval α)}, canonical M l →
      l.countP (fun i => decide (memI x i)) ≤ 1 := by
  intro l
  induction l with
  | nil => intro _; simp
  | cons a t ih =>
    intro h
    by_cases hm : memI x a
    · rw [countP_cons_true hm]
      have ht : t.countP (fun i => decide (memI x i)) = 0 := by
        rw [List.countP_eq_zero]
        intro j hj
        have hsep : Sep M a j :=
          (List.pairwise_cons.mp (canonical_pairwise h)).1 j hj
        have hxj : x < j.lo :=
          lt_of_le_of_lt hm.2 (canonical_hi_lt_lo hsep)
        simp only [decide_eq_true_eq]
        rintro ⟨h1, _⟩
        exact absurd h1 (not_le.mpr hxj)
      omega
    · rw [countP_cons_false hm]
      exact ih (canonical_tail h)

theorem twoMem_mergeByLo_iff {M : StepModel α} {x : α}
    {A B : List (Interval α)} (hA : canonical M A) (hB : canonical M B) :
    TwoMem x (mergeByLo A B) ↔ memS x A ∧ memS x B := by
  rw [twoMem_iff_countP,
    (mergeByLo_perm A B).countP_eq (fun i => decide (memI x i)),
    List.countP_append, memS_iff_countP, memS_iff_countP]
  have h1 := countP_le_one_of_canonical (M := M) (x := x) hA
  have h2 := countP_le_one_of_canonical (M := M) (x := x) hB
  omega

theorem twoMem_cons {x : α} {i : Interval α} {rest : List (Interval α)} :
    TwoMem x (i :: rest) ↔ (memI x i ∧ memS x rest) ∨ TwoMem x rest :=
  Iff.rfl

theorem interGo_nil (prev : Interval α) : interGo prev [] = [] := rfl

theorem interGo_cons (prev i : Interval α) (rest : List (Interval α)) :
    interGo prev (i :: rest) =
      if i.lo ≤ prev.hi then
        match Interval.intersection prev i with
        | some e =>
          e :: (if prev.hi < i.hi then interGo i rest else interGo prev rest)
        | none =>
          if prev.hi < i.hi then interGo i rest else interGo prev rest
      else interGo i rest := rfl

set_option maxHeartbeats 1600000 in
/-- Membership correctness of the intersection fold: on a sorted stream
with the three-point separation invariant, the output contains exactly the
points lying in two distinct stream positions. -/
theorem interGo_mem {M : StepModel α} :
    ∀ {rest : List (Interval α)} {prev : Interval α},
      LoSorted (prev :: rest) → Trip M (prev :: rest) →
      (∀ j ∈ prev :: rest, j.lo ≤ j.hi) → ∀ x,
      (memS x (interGo prev rest) ↔ TwoMem x (prev :: rest)) := by
  intro rest
  induction rest with
  | nil =>
    intro prev _ _ _ x
    rw [interGo_nil, twoMem_cons]
    constructor
    · intro h; exact absurd h (memS_nil x)
    · rintro (⟨_, h2⟩ | h2)
      · exact absurd h2 (memS_nil x)
      · exact h2.elim
  | cons i rest ih =>
    intro prev hsorted htrip hvalid x
    have hexcl : ∀ j ∈ rest, memI x j → min prev.hi i.hi < x := by
      intro j hj hm
      obtain ⟨s, hs, hsj⟩ := htrip (List.Sublist.cons₂ prev
        (List.Sublist.cons₂ i (List.singleton_sublist.mpr hj)))
      exact lt_trans (M.fwd_lt hs) (lt_of_lt_of_le hsj hm.1)
    have hexclS : memS x rest → min prev.hi i.hi < x := by
      rintro ⟨j, hj, hm⟩; exact hexcl j hj hm
    rw [interGo_cons, twoMem_cons, twoMem_cons, memS_cons]
    by_cases hcmp : i.lo ≤ prev.hi
    · rw [if_pos hcmp]
      rcases lt_or_le prev.hi i.hi with hadv | hstay
      · -- prev advances to i
        have htail := ih
          ((List.pairwise_cons.mp hsorted).2)
          (htrip.sublist (List.sublist_cons_self prev (i :: rest)))
          (fun j hj => hvalid j (List.mem_cons_of_mem prev hj)) x
        rw [twoMem_cons] at htail
        have hmin : min prev.hi i.hi = prev.hi := min_eq_left (le_of_lt hadv)
        rw [hmin] at hexclS
        have hnot : ¬ (memI x prev ∧ memS x rest) := by
          rintro ⟨h1, h2⟩
          exact absurd h1.2 (not_le.mpr (hexclS h2))
        cases hi2 : Interval.intersection prev i with
        | some e =>
          rw [if_pos hadv, memS_cons, htail, memI_intersection_some hi2]
          tauto
        | none =>
          rw [if_pos hadv, htail]
          have hno := memI_intersection_none hi2 x
          tauto
      · -- prev stays
        have hsub : List.Sublist (prev :: rest) (prev :: i :: rest) :=
          List.Sublist.cons₂ prev (List.sublist_cons_self i rest)
        have htail := ih (hsorted.sublist hsub)
          (htrip.sublist hsub)
          (fun j hj => hvalid j (hsub.subset hj)) x
        rw [twoMem_cons] at htail
        have hmin : min prev.hi i.hi = i.hi := min_eq_right hstay
        rw [hmin] at hexclS
        have hnot2 : ¬ (memI x i ∧ memS x rest) := by
          rintro ⟨h1, h2⟩
          exact absurd h1.2 (not_le.mpr (hexclS h2))
        cases hi2 : Interval.intersection prev i with
        | some e =>
          rw [if_neg (not_lt.mpr hstay), memS_cons, htail,
            memI_intersection_some hi2]
          tauto
        | none =>
          rw [if_neg (not_lt.mpr hstay), htail]
          have hno := memI_intersection_none hi2 x
          tauto
    · -- no overlap: prev is dropped
      rw [if_neg hcmp]
      have hlt : prev.hi < i.lo := not_le.mp hcmp
      have htail := ih
        ((List.pairwise_cons.mp hsorted).2)
        (htrip.sublist (List.sublist_cons_self prev (i :: rest)))
        (fun j hj => hvalid j (List.mem_cons_of_mem prev hj)) x
      rw [twoMem_cons] at htail
      rw [htail]
      have hnoti : ¬ (memI x prev ∧ memI x i) := by
        rintro ⟨h1, h2⟩
        exact absurd (lt_of_le_of_lt h1.2 (lt_of_lt_of_le hlt h2.1))
          (lt_irrefl x)
      have hnotr : ¬ (memI x prev ∧ memS x rest) := by
        rintro ⟨h1, j, hj, hm⟩
        have hij : i.lo ≤ j.lo :=
          (List.pairwise_cons.mp (List.pairwise_cons.mp hsorted).2).1 j hj
        exact absurd (lt_of_le_of_lt h1.2
          (lt_of_lt_of_le hlt (le_trans hij hm.1))) (lt_irrefl x)
      tauto

/-- Canonicity of the intersection fold output, together with a lower
bound on the emitted lower bounds (every emitted piece starts at or after
some stream element other than the initial candidate). -/
theorem interGo_canonical {M : StepModel α} :
    ∀ {rest : List (Interval α)} {prev : Interval α},
      LoSorted (prev :: rest) → Trip M (prev :: rest) →
      (∀ j ∈ prev :: rest, j.lo ≤ j.hi) →
      canonical M (interGo prev rest) ∧
        ∀ f ∈ interGo prev rest, ∃ j ∈ rest, j.lo ≤ f.lo := by
  intro rest
  induction rest with
  | nil =>
    intro prev _ _ _
    rw [interGo_nil]
    exact ⟨⟨by simp, trivial⟩, by simp⟩
  | cons i rest ih =>
    intro prev hsorted htrip hvalid
    have hsubAdv : List.Sublist (i :: rest) (prev :: i :: rest) :=
      List.sublist_cons_self prev (i :: rest)
    have hsubStay : List.Sublist (prev :: rest) (prev :: i :: rest) :=
      List.Sublist.cons₂ prev (List.sublist_cons_self i rest)
    have hIH : canonical M
        (if prev.hi < i.hi then interGo i rest else interGo prev rest) ∧
        ∀ f ∈ (if prev.hi < i.hi then interGo i rest else interGo prev rest),
          ∃ j ∈ rest, j.lo ≤ f.lo := by
      rcases lt_or_le prev.hi i.hi with hadv | hstay
      · rw [if_pos hadv]
        exact ih (hsorted.sublist hsubAdv) (htrip.sublist hsubAdv)
          (fun j hj => hvalid j (hsubAdv.subset hj))
      · rw [if_neg (not_lt.mpr hstay)]
        exact ih (hsorted.sublist hsubStay) (htrip.sublist hsubStay)
          (fun j hj => hvalid j (hsubStay.subset hj))
    rw [interGo_cons]
    by_cases hcmp : i.lo ≤ prev.hi
    · rw [if_pos hcmp]
      cases hi2 : Interval.intersection prev i with
      | none =>
        refine ⟨hIH.1, ?_⟩
        intro f hf
        obtain ⟨j, hj, hle⟩ := hIH.2 f hf
        exact ⟨j, List.mem_cons_of_mem i hj, hle⟩
      | some e =>
        obtain ⟨helo, hehi, heval⟩ := intersection_some_bounds hi2
        constructor
        · constructor
          · intro j hj
            rcases List.mem_cons.mp hj with hj | hj
            · cases hj; exact heval
            · exact hIH.1.1 j hj
          · cases htl : (if prev.hi < i.hi then interGo i rest
                else interGo prev rest) with
            | nil => trivial
            | cons f t =>
              refine chainSep_cons_cons.mpr ⟨?_, ?_⟩
              · have hf : f ∈ (if prev.hi < i.hi then interGo i rest
                    else interGo prev rest) := by rw [htl]; simp
                obtain ⟨j, hj, hle⟩ := hIH.2 f hf
                obtain ⟨s, hs, hsj⟩ := htrip (List.Sublist.cons₂ prev
                  (List.Sublist.cons₂ i (List.singleton_sublist.mpr hj)))
                refine Sep.intro ?_ (lt_of_lt_of_le hsj hle)
                rw [hehi]
                exact hs
              · have hc := hIH.1.2
                rw [htl] at hc
                exact hc
        · intro f hf
          rcases List.mem_cons.mp hf with hf | hf
          · cases hf
            exact ⟨i, List.mem_cons_self i rest,
              by rw [helo]; exact le_max_right _ _⟩
          · obtain ⟨j, hj, hle⟩ := hIH.2 f hf
            exact ⟨j, List.mem_cons_of_mem i hj, hle⟩
    · rw [if_neg hcmp]
      have h2 := ih (hsorted.sublist hsubAdv) (htrip.sublist hsubAdv)
        (fun j hj => hvalid j (hsubAdv.subset hj))
      refine ⟨h2.1, ?_⟩
      intro f hf
      obtain ⟨j, hj, hle⟩ := h2.2 f hf
      exact ⟨j, List.mem_cons_of_mem i hj, hle⟩

/-- Membership correctness of IntervalSet::intersection on canonical
inputs. -/
theorem intersection_mem {M : StepModel α} {A B : List (Interval α)}
    (hA : canonical M A) (hB : canonical M B) (x : α) :
    memS x (intersection A B) ↔ memS x A ∧ memS x B := by
  unfold intersection
  cases hm : mergeByLo A B with
  | nil =>
    constructor
    · intro h; exact absurd h (memS_nil x)
    · rintro ⟨⟨iA, hiA, hmA⟩, _⟩
      have hmem : iA ∈ mergeByLo A B := mem_mergeByLo.mpr (Or.inl hiA)
      rw [hm] at hmem
      cases hmem
  | cons p rest =>
    have hsorted : LoSorted (p :: rest) := by
      rw [← hm]
      exact mergeByLo_sorted (canonical_sorted hA) (canonical_sorted hB)
    have htrip : Trip M (p :: rest) := by
      rw [← hm]; exact trip_mergeByLo hA hB
    have hvalid : ∀ j ∈ p :: rest, j.lo ≤ j.hi := by
      intro j hj
      rw [← hm] at hj
      rcases mem_mergeByLo.mp hj with hj | hj
      · exact hA.1 j hj
      · exact hB.1 j hj
    rw [interGo_mem hsorted htrip hvalid x, ← hm,
      twoMem_mergeByLo_iff hA hB]

/-- Canonicity of IntervalSet::intersection on canonical inputs. -/
theorem intersection_canonical {M : StepModel α} {A B : List (Interval α)}
    (hA : canonical M A) (hB : canonical M B) :
    canonical M (intersection A B) := by
  unfold intersection
  cases hm : mergeByLo A B with
  | nil => exact ⟨by simp, trivial⟩
  | cons p rest =>
    have hsorted : LoSorted (p :: rest) := by
      rw [← hm]
      exact mergeByLo_sorted (canonical_sorted hA) (canonical_sorted hB)
    have htrip : Trip M (p :: rest) := by
      rw [← hm]; exact trip_mergeByLo hA hB
    have hvalid : ∀ j ∈ p :: rest, j.lo ≤ j.hi := by
      intro j hj
      rw [← hm] at hj
      rcases mem_mergeByLo.mp hj with hj | hj
      · exact hA.1 j hj
      · exact hB.1 j hj
    exact (interGo_canonical hsorted htrip hvalid).1

theorem diffLeft_some_bounds {M : StepModel α} {a b l : Interval α}
    (ha : a.lo ≤ a.hi) (h : diffLeft M a b = some (some l)) :
    l.lo = a.lo ∧ l.lo ≤ l.hi ∧ l.hi ≤ a.hi ∧ a.lo < b.lo ∧
      ∃ p, M.bwd b.lo = some p ∧ l.hi = min a.hi p := by
  rcases lt_or_le a.lo b.lo with hlt | hge
  · obtain ⟨p, hp, heq, hmin⟩ := diffLeft_eq_some (M := M) ha hlt
    rw [h] at heq
    cases heq
    exact ⟨rfl, hmin, min_le_left _ _, hlt, p, hp, rfl⟩
  · rw [diffLeft_eq_none (not_lt.mpr hge)] at h
    cases h

theorem diffRight_some_bounds {M : StepModel α} {a b r : Interval α}
    (ha : a.lo ≤ a.hi) (h : diffRight M a b = some (some r)) :
    r.hi = a.hi ∧ r.lo ≤ r.hi ∧ a.lo ≤ r.lo ∧ b.hi < r.lo ∧ b.hi < a.hi := by
  rcases lt_or_le b.hi a.hi with hgt | hge
  · obtain ⟨s, hs, heq, hmax⟩ := diffRight_eq_some (M := M) ha hgt
    rw [h] at heq
    cases heq
    exact ⟨rfl, hmax, le_max_left _ _,
      lt_of_lt_of_le (M.fwd_lt hs) (le_max_right _ _), hgt⟩
  · rw [diffRight_eq_none (not_lt.mpr hge)] at h
    cases h

theorem diffRight_none_le {M : StepModel α} {a b : Interval α}
    (ha : a.lo ≤ a.hi) (h : diffRight M a b = some none) : a.hi ≤ b.hi := by
  by_contra hc
  obtain ⟨s, _, heq, _⟩ := diffRight_eq_some (M := M) ha (not_le.mp hc)
  rw [h] at heq
  cases heq

theorem diffCombine_some (left : Option (Interval α))
    (t : List (Interval α)) :
    ∃ out, diffCombine left (some t) = some out := by
  cases left with
  | none => exact ⟨t, rfl⟩
  | some l => exact ⟨l :: t, rfl⟩

theorem diffCombine_none (left : Option (Interval α)) :
    diffCombine left (none : Option (List (Interval α))) = none := by
  cases left <;> rfl

/-- Output description of diffCombine with a completed tail. -/
theorem memS_diffCombine {left : Option (Interval α)}
    {t out : List (Interval α)}
    (h : diffCombine left (some t) = some out) (x : α) :
    memS x out ↔ (∃ l, left = some l ∧ memI x l) ∨ memS x t := by
  cases left with
  | none =>
    cases h
    simp
  | some l =>
    cases h
    rw [memS_cons]
    simp

theorem mem_diffCombine {left : Option (Interval α)}
    {t out : List (Interval α)}
    (h : diffCombine left (some t) = some out) (f : Interval α) :
    f ∈ out ↔ left = some f ∨ f ∈ t := by
  cases left with
  | none => cases h; simp
  | some l => cases h; simp [eq_comm]

/-- The r part handed back into the loop keeps the canonical relation of a
to the rest of the minuend (it shares the upper bound of a). -/
theorem canonical_replace_head {M : StepModel α} {a r : Interval α}
    {arest : List (Interval α)} (hcan : canonical M (a :: arest))
    (hval : r.lo ≤ r.hi) (hhi : r.hi = a.hi) :
    canonical M (r :: arest) := by
  constructor
  · intro j hj
    rcases List.mem_cons.mp hj with hj | hj
    · cases hj; exact hval
    · exact hcan.1 j (List.mem_cons_of_mem a hj)
  · cases arest with
    | nil => trivial
    | cons a1 arest1 =>
      refine chainSep_cons_cons.mpr ⟨?_, hcan.2.2⟩
      obtain ⟨s, hs, hsl⟩ := (hcan.2.1 : Sep M a a1).elim
      exact Sep.intro (by rw [hhi]; exact hs) hsl

/-- The difference loop never panics when the minuend intervals are
valid (Interval::difference is total on valid minuends). -/
theorem diffGo_isSome {M : StepModel α} :
    ∀ {bs arest : List (Interval α)} {a : Interval α}, a.lo ≤ a.hi →
      (∀ j ∈ arest, j.lo ≤ j.hi) →
      ∃ out, diffGo M a arest bs = some out := by
  intro bs
  induction bs with
  | nil =>
    intro arest a _ _
    exact ⟨a :: arest, diffGo_nil M a arest⟩
  | cons b brest ihb =>
    intro arest
    induction arest with
    | nil =>
      intro a ha _
      rw [diffGo_cons]
      cases hd : Interval.difference M a b with
      | none =>
        obtain ⟨l2, r2, hd2⟩ := difference_isSome (M := M) (b := b) ha
        rw [hd] at hd2
        cases hd2
      | some lr =>
        obtain ⟨left, right⟩ := lr
        cases right with
        | some r =>
          dsimp only
          have hrb := (difference_eq_some_iff hd).2
          obtain ⟨_, hrval, _, _, _⟩ := diffRight_some_bounds ha hrb
          obtain ⟨t, ht⟩ := ihb hrval (fun j hj => absurd hj
            (List.not_mem_nil j))
          rw [ht]
          exact diffCombine_some left t
        | none =>
          dsimp only
          exact diffCombine_some left []
    | cons a1 arest1 iha =>
      intro a ha hvals
      rw [diffGo_cons]
      cases hd : Interval.difference M a b with
      | none =>
        obtain ⟨l2, r2, hd2⟩ := difference_isSome (M := M) (b := b) ha
        rw [hd] at hd2
        cases hd2
      | some lr =>
        obtain ⟨left, right⟩ := lr
        cases right with
        | some r =>
          dsimp only
          have hrb := (difference_eq_some_iff hd).2
          obtain ⟨_, hrval, _, _, _⟩ := diffRight_some_bounds ha hrb
          obtain ⟨t, ht⟩ := ihb hrval hvals
          rw [ht]
          exact diffCombine_some left t
        | none =>
          dsimp only
          obtain ⟨t, ht⟩ := iha (hvals a1 (by simp))
            (fun j hj => hvals j (by simp [hj]))
          rw [ht]
          exact diffCombine_some left t

theorem canonical_cons_lo {M : StepModel α} {a : Interval α}
    {arest : List (Interval α)} (h : canonical M (a :: arest)) :
    ∀ f ∈ a :: arest, a.lo ≤ f.lo := by
  intro f hf
  rcases List.mem_cons.mp hf with hf | hf
  · cases hf; exact le_refl _
  · exact sep_lo_le ((List.pairwise_cons.mp (canonical_pairwise h)).1 f hf)
      (h.1 a (by simp))

theorem not_memI_iff {x : α} {b : Interval α} :
    ¬ memI x b ↔ x < b.lo ∨ b.hi < x := by
  unfold memI
  rw [not_and_or, not_le, not_le]

/-- Membership correctness of the difference loop on canonical inputs:
the output holds exactly the points of the remaining minuend that avoid
the remaining subtrahend. -/
theorem diffGo_mem {M : StepModel α} :
    ∀ {bs arest : List (Interval α)} {a : Interval α}
      {out : List (Interval α)},
      canonical M (a :: arest) → canonical M bs →
      diffGo M a arest bs = some out → ∀ x,
      (memS x out ↔ memS x (a :: arest) ∧ ¬ memS x bs) := by
  intro bs
  induction bs with
  | nil =>
    intro arest a out _ _ hout x
    rw [diffGo_nil] at hout
    cases hout
    exact ⟨fun h => ⟨h, memS_nil x⟩, fun h => h.1⟩
  | cons b brest ihb =>
    intro arest
    induction arest with
    | nil =>
      intro a out hcanA hcanB hout x
      have ha : a.lo ≤ a.hi := hcanA.1 a (by simp)
      have hvb : b.lo ≤ b.hi := hcanB.1 b (by simp)
      have f1 : x < b.lo → ¬ memS x brest := by
        rintro hx ⟨j, hj, hm⟩
        have hsep : Sep M b j :=
          (List.pairwise_cons.mp (canonical_pairwise hcanB)).1 j hj
        exact absurd (lt_of_lt_of_le (lt_of_le_of_lt
          (le_trans (le_of_lt hx) hvb) (canonical_hi_lt_lo hsep)) hm.1)
          (lt_irrefl x)
      rw [diffGo_cons] at hout
      revert hout
      cases hd : Interval.difference M a b with
      | none =>
        intro hout
        cases hout
      | some lr =>
        obtain ⟨left, right⟩ := lr
        have hleft := (difference_eq_some_iff hd).1
        have hright := (difference_eq_some_iff hd).2
        have hmemL := memI_diffLeft (M := M) ha hleft
        have hmemR := memI_diffRight (M := M) ha hright
        cases right with
        | some r =>
          intro hout
          dsimp only at hout
          cases htail : diffGo M r [] brest with
          | none => rw [htail, diffCombine_none] at hout; cases hout
          | some t =>
            rw [htail] at hout
            obtain ⟨hrhi, hrval, hrlo, hbr, hba⟩ :=
              diffRight_some_bounds ha hright
            have hcanR : canonical M (r :: ([] : List (Interval α))) :=
              canonical_replace_head hcanA hrval hrhi
            have htmem := ihb hcanR (canonical_tail hcanB) htail x
            have hiff := memS_diffCombine hout x
            rw [hmemL x] at hiff
            rw [htmem] at hiff
            have hxr : memI x r ↔ memI x a ∧ b.hi < x := by
              rw [← hmemR x]; simp
            rw [hiff, memS_cons, memS_cons, memS_cons]
            have hnb := not_memI_iff (x := x) (b := b)
            constructor
            · rintro (⟨h1, h2⟩ | ⟨(h1 | h1), h2⟩)
              · refine ⟨Or.inl h1, ?_⟩
                rintro (hb | hb)
                · exact absurd (lt_of_le_of_lt hb.1 h2) (lt_irrefl _)
                · exact f1 h2 hb
              · obtain ⟨hma, hgt⟩ := hxr.mp h1
                refine ⟨Or.inl hma, ?_⟩
                rintro (hb | hb)
                · exact absurd (lt_of_lt_of_le hgt hb.2) (lt_irrefl _)
                · exact h2 hb
              · exact absurd h1 (memS_nil x)
            · rintro ⟨h1 | h1, h2⟩
              · rcases hnb.mp (fun hb => h2 (Or.inl hb)) with hlt | hgt
                · exact Or.inl ⟨h1, hlt⟩
                · exact Or.inr ⟨Or.inl (hxr.mpr ⟨h1, hgt⟩),
                    fun hb => h2 (Or.inr hb)⟩
              · exact absurd h1 (memS_nil x)
        | none =>
          intro hout
          dsimp only at hout
          have hble : a.hi ≤ b.hi := diffRight_none_le ha hright
          have hiff := memS_diffCombine hout x
          rw [hmemL x] at hiff
          rw [hiff, memS_cons, memS_cons]
          have hnb := not_memI_iff (x := x) (b := b)
          constructor
          · rintro (⟨h1, h2⟩ | h1)
            · refine ⟨Or.inl h1, ?_⟩
              rintro (hb | hb)
              · exact absurd (lt_of_le_of_lt hb.1 h2) (lt_irrefl _)
              · exact f1 h2 hb
            · exact absurd h1 (memS_nil x)
          · rintro ⟨h1 | h1, h2⟩
            · rcases hnb.mp (fun hb => h2 (Or.inl hb)) with hlt | hgt
              · exact Or.inl ⟨h1, hlt⟩
              · exact absurd (lt_of_le_of_lt (le_trans h1.2 hble) hgt)
                  (lt_irrefl x)
            · exact absurd h1 (memS_nil x)
    | cons a1 arest1 iha =>
      intro a out hcanA hcanB hout x
      have ha : a.lo ≤ a.hi := hcanA.1 a (by simp)
      have hvb : b.lo ≤ b.hi := hcanB.1 b (by simp)
      have f1 : x < b.lo → ¬ memS x brest := by
        rintro hx ⟨j, hj, hm⟩
        have hsep : Sep M b j :=
          (List.pairwise_cons.mp (canonical_pairwise hcanB)).1 j hj
        exact absurd (lt_of_lt_of_le (lt_of_le_of_lt
          (le_trans (le_of_lt hx) hvb) (canonical_hi_lt_lo hsep)) hm.1)
          (lt_irrefl x)
      have harest : memS x (a1 :: arest1) → a.hi < x := by
        rintro ⟨j, hj, hm⟩
        have hsep : Sep M a j :=
          (List.pairwise_cons.mp (canonical_pairwise hcanA)).1 j hj
        exact lt_of_lt_of_le (canonical_hi_lt_lo hsep) hm.1
      rw [diffGo_cons] at hout
      revert hout
      cases hd : Interval.difference M a b with
      | none =>
        intro hout
        cases hout
      | some lr =>
        obtain ⟨left, right⟩ := lr
        have hleft := (difference_eq_some_iff hd).1
        have hright := (difference_eq_some_iff hd).2
        have hmemL := memI_diffLeft (M := M) ha hleft
        have hmemR := memI_diffRight (M := M) ha hright
        cases right with
        | some r =>
          intro hout
          dsimp only at hout
          cases htail : diffGo M r (a1 :: arest1) brest with
          | none => rw [htail, diffCombine_none] at hout; cases hout
          | some t =>
            rw [htail] at hout
            obtain ⟨hrhi, hrval, hrlo, hbr, hba⟩ :=
              diffRight_some_bounds ha hright
            have hcanR : canonical M (r :: a1 :: arest1) :=
              canonical_replace_head hcanA hrval hrhi
            have htmem := ihb hcanR (canonical_tail hcanB) htail x
            have hiff := memS_diffCombine hout x
            rw [hmemL x] at hiff
            rw [htmem, memS_cons] at hiff
            have hxr : memI x r ↔ memI x a ∧ b.hi < x := by
              rw [← hmemR x]; simp
            rw [hiff, memS_cons (i := a), memS_cons (i := b)]
            have hnb := not_memI_iff (x := x) (b := b)
            constructor
            · rintro (⟨h1, h2⟩ | ⟨(h1 | h1), h2⟩)
              · refine ⟨Or.inl h1, ?_⟩
                rintro (hb | hb)
                · exact absurd (lt_of_le_of_lt hb.1 h2) (lt_irrefl _)
                · exact f1 h2 hb
              · obtain ⟨hma, hgt⟩ := hxr.mp h1
                refine ⟨Or.inl hma, ?_⟩
                rintro (hb | hb)
                · exact absurd (lt_of_lt_of_le hgt hb.2) (lt_irrefl _)
                · exact h2 hb
              · refine ⟨Or.inr h1, ?_⟩
                have hgt : a.hi < x := harest h1
                rintro (hb | hb)
                · exact absurd hb.2 (not_le.mpr (lt_trans hba hgt))
                · exact h2 hb
            · rintro ⟨h1 | h1, h2⟩
              · rcases hnb.mp (fun hb => h2 (Or.inl hb)) with hlt | hgt
                · exact Or.inl ⟨h1, hlt⟩
                · exact Or.inr ⟨Or.inl (hxr.mpr ⟨h1, hgt⟩),
                    fun hb => h2 (Or.inr hb)⟩
              · exact Or.inr ⟨Or.inr h1, fun hb => h2 (Or.inr hb)⟩
        | none =>
          intro hout
          dsimp only at hout
          have hble : a.hi ≤ b.hi := diffRight_none_le ha hright
          cases htail : diffGo M a1 arest1 (b :: brest) with
          | none => rw [htail, diffCombine_none] at hout; cases hout
          | some t =>
            rw [htail] at hout
            have htmem := iha (canonical_tail hcanA) hcanB htail x
            have hiff := memS_diffCombine hout x
            rw [hmemL x] at hiff
            rw [htmem] at hiff
            rw [hiff, memS_cons (i := a), memS_cons (i := b)]
            have hnb := not_memI_iff (x := x) (b := b)
            constructor
            · rintro (⟨h1, h2⟩ | ⟨h1, h2⟩)
              · refine ⟨Or.inl h1, ?_⟩
                rintro (hb | hb)
                · exact absurd (lt_of_le_of_lt hb.1 h2) (lt_irrefl _)
                · exact f1 h2 hb
              · exact ⟨Or.inr h1, h2⟩
            · rintro ⟨h1 | h1, h2⟩
              · rcases hnb.mp (fun hb => h2 (Or.inl hb)) with hlt | hgt
                · exact Or.inl ⟨h1, hlt⟩
                · exact absurd (lt_of_le_of_lt (le_trans h1.2 hble) hgt)
                    (lt_irrefl x)
              · exact Or.inr ⟨h1, h2⟩

/-- Canonicity of the difference loop output on canonical inputs, with
every emitted interval starting at or after the current minuend head. -/
theorem diffGo_canonical {M : StepModel α} :
    ∀ {bs arest : List (Interval α)} {a : Interval α}
      {out : List (Interval α)},
      canonical M (a :: arest) → canonical M bs →
      diffGo M a arest bs = some out →
      canonical M out ∧ ∀ f ∈ out, a.lo ≤ f.lo := by
  intro bs
  induction bs with
  | nil =>
    intro arest a out hcanA _ hout
    rw [diffGo_nil] at hout
    cases hout
    exact ⟨hcanA, canonical_cons_lo hcanA⟩
  | cons b brest ihb =>
    intro arest
    induction arest with
    | nil =>
      intro a out hcanA hcanB hout
      have ha : a.lo ≤ a.hi := hcanA.1 a (by simp)
      rw [diffGo_cons] at hout
      revert hout
      cases hd : Interval.difference M a b with
      | none => intro hout; cases hout
      | some lr =>
        obtain ⟨left, right⟩ := lr
        have hleft := (difference_eq_some_iff hd).1
        have hright := (difference_eq_some_iff hd).2
        cases right with
        | some r =>
          intro hout
          dsimp only at hout
          cases htail : diffGo M r [] brest with
          | none => rw [htail, diffCombine_none] at hout; cases hout
          | some t =>
            rw [htail] at hout
            obtain ⟨hrhi, hrval, hrlo, hbr, hba⟩ :=
              diffRight_some_bounds ha hright
            have hvb : b.lo ≤ b.hi := hcanB.1 b (by simp)
            have hcanR : canonical M (r :: ([] : List (Interval α))) :=
              canonical_replace_head hcanA hrval hrhi
            obtain ⟨hcanT, hauxT⟩ := ihb hcanR (canonical_tail hcanB) htail
            cases left with
            | none =>
              cases hout
              exact ⟨hcanT, fun f hf => le_trans hrlo (hauxT f hf)⟩
            | some l =>
              cases hout
              obtain ⟨hllo, hlval, hlhi, halb, p, hp, hlmin⟩ :=
                diffLeft_some_bounds ha hleft
              have hpa : p < a.hi :=
                lt_of_lt_of_le (M.bwd_lt hp) (le_trans hvb (le_of_lt hba))
              have hlhp : l.hi = p := by
                rw [hlmin]
                exact min_eq_right (le_of_lt hpa)
              refine ⟨⟨?_, ?_⟩, ?_⟩
              · intro j hj
                rcases List.mem_cons.mp hj with hj | hj
                · cases hj; exact hlval
                · exact hcanT.1 j hj
              · cases ht : t with
                | nil => trivial
                | cons f t2 =>
                  refine chainSep_cons_cons.mpr ⟨?_, by
                    rw [ht] at hcanT; exact hcanT.2⟩
                  have hf : f ∈ t := by rw [ht]; simp
                  refine Sep.intro (by rw [hlhp]; exact M.fwd_bwd hp) ?_
                  exact lt_of_le_of_lt hvb
                    (lt_of_lt_of_le hbr (hauxT f hf))
              · intro f hf
                rcases List.mem_cons.mp hf with hf | hf
                · cases hf; rw [hllo]
                · exact le_trans hrlo (hauxT f hf)
        | none =>
          intro hout
          dsimp only at hout
          cases left with
          | none =>
            cases hout
            exact ⟨⟨by simp, trivial⟩, by simp⟩
          | some l =>
            cases hout
            obtain ⟨hllo, hlval, hlhi, halb, p, hp, hlmin⟩ :=
              diffLeft_some_bounds ha hleft
            refine ⟨⟨?_, trivial⟩, ?_⟩
            · intro j hj
              rcases List.mem_cons.mp hj with hj | hj
              · cases hj; exact hlval
              · cases hj
            · intro f hf
              rcases List.mem_cons.mp hf with hf | hf
              · cases hf; rw [hllo]
              · cases hf
    | cons a1 arest1 iha =>
      intro a out hcanA hcanB hout
      have ha : a.lo ≤ a.hi := hcanA.1 a (by simp)
      have hvb : b.lo ≤ b.hi := hcanB.1 b (by simp)
      have hsepA : Sep M a a1 := hcanA.2.1
      rw [diffGo_cons] at hout
      revert hout
      cases hd : Interval.difference M a b with
      | none => intro hout; cases hout
      | some lr =>
        obtain ⟨left, right⟩ := lr
        have hleft := (difference_eq_some_iff hd).1
        have hright := (difference_eq_some_iff hd).2
        cases right with
        | some r =>
          intro hout
          dsimp only at hout
          cases htail : diffGo M r (a1 :: arest1) brest with
          | none => rw [htail, diffCombine_none] at hout; cases hout
          | some t =>
            rw [htail] at hout
            obtain ⟨hrhi, hrval, hrlo, hbr, hba⟩ :=
              diffRight_some_bounds ha hright
            have hcanR : canonical M (r :: a1 :: arest1) :=
              canonical_replace_head hcanA hrval hrhi
            obtain ⟨hcanT, hauxT⟩ := ihb hcanR (canonical_tail hcanB) htail
            cases left with
            | none =>
              cases hout
              exact ⟨hcanT, fun f hf => le_trans hrlo (hauxT f hf)⟩
            | some l =>
              cases hout
              obtain ⟨hllo, hlval, hlhi, halb, p, hp, hlmin⟩ :=
                diffLeft_some_bounds ha hleft
              have hpa : p < a.hi :=
                lt_of_lt_of_le (M.bwd_lt hp) (le_trans hvb (le_of_lt hba))
              have hlhp : l.hi = p := by
                rw [hlmin]
                exact min_eq_right (le_of_lt hpa)
              refine ⟨⟨?_, ?_⟩, ?_⟩
              · intro j hj
                rcases List.mem_cons.mp hj with hj | hj
                · cases hj; exact hlval
                · exact hcanT.1 j hj
              · cases ht : t with
                | nil => trivial
                | cons f t2 =>
                  refine chainSep_cons_cons.mpr ⟨?_, by
                    rw [ht] at hcanT; exact hcanT.2⟩
                  have hf : f ∈ t := by rw [ht]; simp
                  refine Sep.intro (by rw [hlhp]; exact M.fwd_bwd hp) ?_
                  exact lt_of_le_of_lt hvb
                    (lt_of_lt_of_le hbr (hauxT f hf))
              · intro f hf
                rcases List.mem_cons.mp hf with hf | hf
                · cases hf; rw [hllo]
                · exact le_trans hrlo (hauxT f hf)
        | none =>
          intro hout
          dsimp only at hout
          cases htail : diffGo M a1 arest1 (b :: brest) with
          | none => rw [htail, diffCombine_none] at hout; cases hout
          | some t =>
            rw [htail] at hout
            obtain ⟨hcanT, hauxT⟩ := iha (canonical_tail hcanA) hcanB htail
            have ha1lo : a.lo ≤ a1.lo := sep_lo_le hsepA ha
            cases left with
            | none =>
              cases hout
              exact ⟨hcanT, fun f hf => le_trans ha1lo (hauxT f hf)⟩
            | some l =>
              cases hout
              obtain ⟨hllo, hlval, hlhi, halb, p, hp, hlmin⟩ :=
                diffLeft_some_bounds ha hleft
              obtain ⟨sa, hsa, hsa1⟩ := hsepA.elim
              refine ⟨⟨?_, ?_⟩, ?_⟩
              · intro j hj
                rcases List.mem_cons.mp hj with hj | hj
                · cases hj; exact hlval
                · exact hcanT.1 j hj
              · cases ht : t with
                | nil => trivial
                | cons f t2 =>
                  refine chainSep_cons_cons.mpr ⟨?_, by
                    rw [ht] at hcanT; exact hcanT.2⟩
                  have hf : f ∈ t := by rw [ht]; simp
                  obtain ⟨s2, hs2, hs2a⟩ := M.fwd_mono hlhi hsa
                  refine Sep.intro hs2 ?_
                  exact lt_of_le_of_lt hs2a
                    (lt_of_lt_of_le hsa1 (hauxT f hf))
              · intro f hf
                rcases List.mem_cons.mp hf with hf | hf
                · cases hf; rw [hllo]
                · exact le_trans ha1lo (hauxT f hf)

/-- IntervalSet::difference never panics when the minuend is canonical
(its intervals are valid). -/
theorem difference_isSome_set {M : StepModel α} {A B : List (Interval α)}
    (hvalA : ∀ i ∈ A, i.lo ≤ i.hi) : ∃ D, difference M A B = some D := by
  cases A with
  | nil => exact ⟨[], rfl⟩
  | cons a arest =>
    exact diffGo_isSome (hvalA a (by simp))
      (fun j hj => hvalA j (by simp [hj]))

/-- Membership correctness of IntervalSet::difference. -/
theorem difference_mem {M : StepModel α} {A B D : List (Interval α)}
    (hA : canonical M A) (hB : canonical M B)
    (h : difference M A B = some D) (x : α) :
    memS x D ↔ memS x A ∧ ¬ memS x B := by
  cases A with
  | nil =>
    cases h
    constructor
    · intro hm; exact absurd hm (memS_nil x)
    · rintro ⟨hm, _⟩; exact absurd hm (memS_nil x)
  | cons a arest => exact diffGo_mem hA hB h x

/-- Canonicity of IntervalSet::difference. -/
theorem difference_canonical {M : StepModel α} {A B D : List (Interval α)}
    (hA : canonical M A) (hB : canonical M B)
    (h : difference M A B = some D) : canonical M D := by
  cases A with
  | nil => cases h; exact ⟨by simp, trivial⟩
  | cons a arest => exact (diffGo_canonical hA hB h).1

theorem intervalExt {a b : Interval α} (h1 : a.lo = b.lo)
    (h2 : a.hi = b.hi) : a = b := by
  cases a
  cases b
  cases h1
  cases h2
  rfl

theorem head_lo_mem {M : StepModel α} {u : Interval α}
    {tu : List (Interval α)} (h : canonical M (u :: tu)) :
    memS u.lo (u :: tu) :=
  ⟨u, by simp, le_refl _, h.1 u (by simp)⟩

theorem mem_head_lo_ge {M : StepModel α} {v : Interval α}
    {tv : List (Interval α)} (h : canonical M (v :: tv)) {y : α}
    (hm : memS y (v :: tv)) : v.lo ≤ y := by
  obtain ⟨c, hc, hmc⟩ := hm
  exact le_trans (canonical_cons_lo h c hc) hmc.1

/-- If every member of the second canonical set belongs to the first and
the heads share a lower bound, the second head cannot reach higher. -/
theorem head_hi_le {M : StepModel α} {u v : Interval α}
    {tu tv : List (Interval α)} (h1 : canonical M (u :: tu))
    (h2 : canonical M (v :: tv))
    (hmem : ∀ x, memS x (v :: tv) → memS x (u :: tu))
    (hlo : u.lo = v.lo) : v.hi ≤ u.hi := by
  by_contra hc
  have hlt : u.hi < v.hi := not_le.mp hc
  have hf : (M.fwd u.hi).isSome := M.fwd_isSome_of_lt hlt
  cases hfv : M.fwd u.hi with
  | none => rw [hfv] at hf; cases hf
  | some s =>
    have hsv : memS s (v :: tv) := by
      refine ⟨v, by simp, ?_, M.fwd_le hfv hlt⟩
      rw [← hlo]
      exact le_trans (h1.1 u (by simp)) (le_of_lt (M.fwd_lt hfv))
    obtain ⟨c, hcmem, hmc⟩ := hmem s hsv
    rcases List.mem_cons.mp hcmem with hcu | hct
    · cases hcu
      exact absurd hmc.2 (not_le.mpr (M.fwd_lt hfv))
    · have hsep : Sep M u c :=
        (List.pairwise_cons.mp (canonical_pairwise h1)).1 c hct
      obtain ⟨s2, hs2, hs2c⟩ := hsep.elim
      rw [hfv] at hs2
      cases hs2
      exact absurd hmc.1 (not_le.mpr hs2c)

/-- A canonical list is determined by its membership: canonical form is a
unique representation. -/
theorem canonical_unique {M : StepModel α} :
    ∀ {l1 l2 : List (Interval α)}, canonical M l1 → canonical M l2 →
      (∀ x, memS x l1 ↔ memS x l2) → l1 = l2 := by
  intro l1
  induction l1 with
  | nil =>
    intro l2 _ h2 hiff
    cases l2 with
    | nil => rfl
    | cons b t2 =>
      exact absurd ((hiff b.lo).mpr (head_lo_mem h2)) (memS_nil b.lo)
  | cons a t1 ih =>
    intro l2 h1 h2 hiff
    cases l2 with
    | nil =>
      exact absurd ((hiff a.lo).mp (head_lo_mem h1)) (memS_nil a.lo)
    | cons b t2 =>
      have hlo : a.lo = b.lo :=
        le_antisymm (mem_head_lo_ge h1 ((hiff b.lo).mpr (head_lo_mem h2)))
          (mem_head_lo_ge h2 ((hiff a.lo).mp (head_lo_mem h1)))
      have hhi : a.hi = b.hi :=
        le_antisymm
          (head_hi_le h2 h1 (fun x hx => (hiff x).mp hx) hlo.symm)
          (head_hi_le h1 h2 (fun x hx => (hiff x).mpr hx) hlo)
      have hab : a = b := intervalExt hlo hhi
      have htail : ∀ x, memS x t1 ↔ memS x t2 := by
        intro x
        have htrans : ∀ {u : Interval α} {tu tv : List (Interval α)}
            {v : Interval α}, canonical M (u :: tu) →
            (∀ y, memS y (u :: tu) → memS y (v :: tv)) → u.hi = v.hi →
            memS x tu → memS x tv := by
          intro u tu tv v hcu hm hhi2 hxt
          obtain ⟨c, hc, hmc⟩ := hxt
          have hgt : u.hi < x := lt_of_lt_of_le (canonical_hi_lt_lo
            ((List.pairwise_cons.mp (canonical_pairwise hcu)).1 c hc)) hmc.1
          rcases memS_cons.mp (hm x ⟨c, List.mem_cons_of_mem u hc, hmc⟩)
            with hv | hv
          · exact absurd hv.2 (not_le.mpr (by rw [← hhi2]; exact hgt))
          · exact hv
        constructor
        · exact fun hx => htrans h1 (fun y hy => (hiff y).mp hy)
            (by rw [hhi]) hx
        · exact fun hx => htrans h2 (fun y hy => (hiff y).mpr hy)
            (by rw [hhi]) hx
      rw [hab, ih (canonical_tail h1) (canonical_tail h2) htail]

/-- Union of two canonical sets with disjoint membership never panics:
the merged stream never asks for the successor of an achieved maximum
before its last element. -/
theorem union_isSome_of_disjoint {M : StepModel α}
    {L1 L2 : List (Interval α)} (h1 : canonical M L1) (h2 : canonical M L2)
    (hdisj : ∀ x, ¬ (memS x L1 ∧ memS x L2)) :
    ∃ S, union M L1 L2 = some S := by
  unfold union
  cases hm : mergeByLo L1 L2 with
  | nil => exact ⟨[], rfl⟩
  | cons p rest =>
    refine unionGo_isSome ?_
    intro j k hs
    have hsm : List.Sublist [j, k] (mergeByLo L1 L2) := by
      rw [hm]; exact hs
    have hsorted : LoSorted (mergeByLo L1 L2) :=
      mergeByLo_sorted (canonical_sorted h1) (canonical_sorted h2)
    have hjk : j.lo ≤ k.lo := pairwise_of_pair_sublist hsorted hsm
    have hcross : ∀ {P Q : List (Interval α)}, canonical M P →
        canonical M Q → (∀ x, ¬ (memS x P ∧ memS x Q)) → j ∈ P → k ∈ Q →
        (M.fwd j.hi).isSome := by
      intro P Q hP hQ hd hjP hkQ
      refine M.fwd_isSome_of_lt (x := j.hi) (w := k.lo) ?_
      by_contra hcon
      have hkj : k.lo ≤ j.hi := not_lt.mp hcon
      exact hd k.lo ⟨⟨j, hjP, hjk, hkj⟩, ⟨k, hkQ, le_refl _,
        hQ.1 k hkQ⟩⟩
    rcases sublist_pair_mergeByLo hsm with hc | hc | ⟨hj, hk⟩ | ⟨hj, hk⟩
    · obtain ⟨s, hsv, _⟩ :=
        (pairwise_of_pair_sublist (canonical_pairwise h1) hc).elim
      rw [hsv]; rfl
    · obtain ⟨s, hsv, _⟩ :=
        (pairwise_of_pair_sublist (canonical_pairwise h2) hc).elim
      rw [hsv]; rfl
    · exact hcross h1 h2 hdisj hj hk
    · exact hcross h2 h1 (fun x hx => hdisj x ⟨hx.2, hx.1⟩) hj hk

/-- usize::MAX on the modelled 64-bit host (cfg target_pointer_width =
"64" in src/traits.rs). -/
def USIZE_MAX : ℕ := 2 ^ 64 - 1

/-- char::MAX as u32. -/
def MAX_CHAR : ℕ := 0x10FFFF

/-- Unicode scalar values: code points outside the surrogate gap
0xD800..0xE000. -/
def isScalar (n : ℕ) : Prop :=
  n < 0xD800 ∨ (0xE000 ≤ n ∧ n ≤ MAX_CHAR)

instance (n : ℕ) : Decidable (isScalar n) := by
  unfold isScalar; infer_instance

/-- u32::forward_checked = checked_add(1) (impl_step_common! in
src/traits.rs). -/
def u32ForwardChecked (s : ℕ) : Option ℕ :=
  if s + 1 < 2 ^ 32 then some (s + 1) else none

/-- u32::backward_checked = checked_sub(1). -/
def u32BackwardChecked (s : ℕ) : Option ℕ :=
  if 0 < s then some (s - 1) else none

/-- char::forward_checked (src/traits.rs): 0xD7FF jumps to 0xE000,
char::MAX has no successor, otherwise u32 step. -/
def charForwardChecked (s : ℕ) : Option ℕ :=
  if s = 0xD7FF then some 0xE000
  else if s = MAX_CHAR then none
  else u32ForwardChecked s

/-- char::backward_checked (src/traits.rs): 0xE000 jumps to 0xD7FF,
otherwise u32 step (none at 0). -/
def charBackwardChecked (s : ℕ) : Option ℕ :=
  if s = 0xE000 then some 0xD7FF
  else u32BackwardChecked s

/-- char::steps_between (src/traits.rs): numeric difference, minus the
gap width 0x800 when the range straddles the surrogate gap; the usize
conversion of the count. -/
def charStepsBetween (start e : ℕ) : ℕ × Option ℕ :=
  if start ≤ e then
    let count := e - start
    let sub := if start < 0xD800 ∧ 0xE000 ≤ e then 0x800 else 0
    if count - sub ≤ USIZE_MAX then (count - sub, some (count - sub))
    else (USIZE_MAX, none)
  else (0, none)

/-- The rank of a scalar value: its index in the successor order. -/
def charIdx (n : ℕ) : ℕ := if n < 0xD800 then n else n - 0x800

/-- n applications of char::forward_checked. -/
def charFwdIter : ℕ → ℕ → Option ℕ
  | 0, a => some a
  | n + 1, a =>
    match charForwardChecked a with
    | none => none
    | some a2 => charFwdIter n a2

theorem charIdx_lt_iff {a b : ℕ} (ha : isScalar a) (hb : isScalar b) :
    (charIdx a < charIdx b ↔ a < b) := by
  unfold isScalar MAX_CHAR at ha hb
  unfold charIdx
  split_ifs <;> omega

/-- One successor step on scalars increments the rank. -/
theorem charFwd_step {a b : ℕ} (ha : isScalar a) (hb : isScalar b)
    (hab : a < b) : ∃ a2, charForwardChecked a = some a2 ∧ isScalar a2 ∧
      charIdx a2 = charIdx a + 1 ∧ a2 ≤ b := by
  by_cases h1 : a = 0xD7FF
  · subst h1
    refine ⟨0xE000, by unfold charForwardChecked; simp, by decide, ?_, ?_⟩
    · decide
    · unfold isScalar MAX_CHAR at hb
      omega
  · by_cases h2 : a = MAX_CHAR
    · exfalso
      unfold isScalar MAX_CHAR at ha hb
      unfold MAX_CHAR at h2
      omega
    · have hlt : a + 1 < 2 ^ 32 := by
        unfold isScalar MAX_CHAR at ha
        omega
      refine ⟨a + 1, ?_, ?_, ?_, by omega⟩
      · unfold charForwardChecked
        rw [if_neg h1, if_neg h2]
        unfold u32ForwardChecked
        rw [if_pos hlt]
      · unfold isScalar MAX_CHAR at ha hb ⊢
        unfold MAX_CHAR at h2
        omega
      · unfold isScalar MAX_CHAR at ha
        unfold charIdx
        split_ifs <;> omega

/-- Iterating forward_checked by the rank difference lands exactly on the
target scalar: the counted value is the exact successor count. -/
theorem charFwdIter_steps :
    ∀ (n : ℕ) {a b : ℕ}, isScalar a → isScalar b → a ≤ b →
      charIdx b - charIdx a = n → charFwdIter n a = some b := by
  intro n
  induction n with
  | zero =>
    intro a b ha hb hab hidx
    have hnlt : ¬ charIdx a < charIdx b := by omega
    have : ¬ a < b := fun h => hnlt ((charIdx_lt_iff ha hb).mpr h)
    have hba : a = b := le_antisymm hab (not_lt.mp this)
    rw [hba]
    rfl
  | succ n ih =>
    intro a b ha hb hab hidx
    have hlt : a < b := by
      refine (charIdx_lt_iff ha hb).mp ?_
      omega
    obtain ⟨a2, hstep, ha2, hidx2, ha2b⟩ := charFwd_step ha hb hlt
    show (match charForwardChecked a with
      | none => none
      | some a2 => charFwdIter n a2) = some b
    rw [hstep]
    exact ih ha2 hb ha2b (by omega)

/-- The value char::steps_between computes is exactly the rank
difference, i.e. the gap-adjusted numeric difference. -/
theorem charStepsBetween_eq {a b : ℕ} (ha : isScalar a) (hb : isScalar b)
    (hab : a ≤ b) : charStepsBetween a b =
      (charIdx b - charIdx a, some (charIdx b - charIdx a)) := by
  have hkey : b - a - (if a < 0xD800 ∧ 0xE000 ≤ b then 0x800 else 0) =
      charIdx b - charIdx a := by
    unfold isScalar MAX_CHAR at ha hb
    unfold charIdx
    split_ifs <;> omega
  have hle : b - a - (if a < 0xD800 ∧ 0xE000 ≤ b then 0x800 else 0) ≤
      USIZE_MAX := by
    unfold isScalar MAX_CHAR at hb
    unfold USIZE_MAX
    split_ifs <;> omega
  unfold charStepsBetween
  rw [if_pos hab]
  dsimp only
  rw [if_pos hle, hkey]

/-- steps_between for unsigned types narrower than (or equal to) usize
(impl_step! narrower arm, src/traits.rs): plain subtraction. -/
def stepsBetweenUNarrow (start e : ℕ) : ℕ × Option ℕ :=
  if start ≤ e then (e - start, some (e - start)) else (0, none)

/-- steps_between for signed types narrower than (or equal to) usize:
wrapping subtraction in isize reinterpreted as usize, modelled as the
difference modulo 2^64. -/
def stepsBetweenINarrow (start e : ℤ) : ℕ × Option ℕ :=
  if start ≤ e then
    (((e - start) % (2 ^ 64 : ℤ)).toNat,
      some (((e - start) % (2 ^ 64 : ℤ)).toNat))
  else (0, none)

/-- steps_between for unsigned types wider than usize (u128):
usize::try_from fails above usize::MAX. -/
def stepsBetweenUWide (start e : ℕ) : ℕ × Option ℕ :=
  if start ≤ e then
    if e - start ≤ USIZE_MAX then (e - start, some (e - start))
    else (USIZE_MAX, none)
  else (0, none)

def I128_MAX : ℤ := 2 ^ 127 - 1

def I128_MIN : ℤ := -(2 ^ 127)

/-- steps_between for signed types wider than usize (i128): checked_sub
in i128, then usize::try_from. -/
def stepsBetweenIWide (start e : ℤ) : ℕ × Option ℕ :=
  if start ≤ e then
    if I128_MIN ≤ e - start ∧ e - start ≤ I128_MAX then
      if (e - start).toNat ≤ USIZE_MAX then
        ((e - start).toNat, some (e - start).toNat)
      else (USIZE_MAX, none)
    else (USIZE_MAX, none)
  else (0, none)

/-- The u8 instance of Step (src/traits.rs, impl_step_common!):
forward_checked is checked_add 1, backward_checked is checked_sub 1. -/
def u8fwd (x : Fin 256) : Option (Fin 256) :=
  if h : (x : ℕ) + 1 < 256 then some ⟨(x : ℕ) + 1, h⟩ else none

def u8bwd (x : Fin 256) : Option (Fin 256) :=
  if h : 0 < (x : ℕ) then some ⟨(x : ℕ) - 1, by omega⟩ else none

/-- The Step model of u8, with values 0..=255 as Fin 256. -/
def u8M : StepModel (Fin 256) where
  fwd := u8fwd
  bwd := u8bwd
  fwd_lt := by
    intro x y h
    unfold u8fwd at h
    split at h
    · cases h; simp [Fin.lt_def]
    · cases h
  fwd_le := by
    intro x y h z hz
    unfold u8fwd at h
    split at h
    · cases h; simp only [Fin.le_def, Fin.lt_def] at *; omega
    · cases h
  fwd_none := by
    intro x h z
    unfold u8fwd at h
    split at h
    · cases h
    · simp only [Fin.le_def]; omega
  bwd_lt := by
    intro x y h
    unfold u8bwd at h
    split at h
    · cases h; simp only [Fin.lt_def]; omega
    · cases h
  bwd_le := by
    intro x y h z hz
    unfold u8bwd at h
    split at h
    · cases h; simp only [Fin.le_def, Fin.lt_def] at *; omega
    · cases h
  bwd_none := by
    intro x h z
    unfold u8bwd at h
    split at h
    · cases h
    · simp only [Fin.le_def]; omega

/-- The Step model of an unbounded integer index (the behaviour shared by
all the signed fixed-width instances away from their extremes; used for the
integer scenarios of the spec, where successor is numeric +1). -/
def intM : StepModel ℤ where
  fwd x := some (x + 1)
  bwd x := some (x - 1)
  fwd_lt := by intro x y h; cases h; omega
  fwd_le := by intro x y h z hz; cases h; omega
  fwd_none := by intro x h; cases h
  bwd_lt := by intro x y h; cases h; omega
  bwd_le := by intro x y h z hz; cases h; omega
  bwd_none := by intro x h; cases h



namespace Claims

/-- C1 counterexample: over u8, the union of the canonical sets
{[0,255]} and {[5,10]} panics (returns no set) — the adjacency test
calls Step::forward on 255, the type maximum — and so does the insert of
[5,10] into {[0,255]}; the claim said this can never happen. -/
theorem C1_counterexample :
    canonical u8M [⟨0, 255⟩] ∧ canonical u8M [⟨5, 10⟩] ∧
    union u8M [⟨0, 255⟩] [⟨5, 10⟩] = none ∧
    insert u8M [⟨0, 255⟩] ⟨5, 10⟩ = none := by decide

/-- C1 (amended): union (and insert, which is union with a one-interval
set) completes without panicking provided no interval of either input has
an upper bound without a successor (i.e. equal to the type maximum); the
adjacency test only ever steps upper bounds of input intervals. -/
theorem C1_amended : ∀ {α : Type} [inst : LinearOrder α]
    (M : StepModel α) (A B : List (Interval α)) (j : Interval α),
    (∀ i ∈ A, (M.fwd i.hi).isSome) → (∀ i ∈ B, (M.fwd i.hi).isSome) →
    (M.fwd j.hi).isSome →
    (∃ S, union M A B = some S) ∧ ∃ S2, insert M A j = some S2 := by
  intro α inst M A B j hA hB hj
  refine ⟨union_isSome hA hB, union_isSome hA ?_⟩
  intro i hi
  rcases List.mem_cons.mp hi with hi | hi
  · cases hi; exact hj
  · cases hi

theorem C1_witness :
    (∃ S, union u8M [⟨0, 3⟩] [⟨5, 6⟩] = some S) ∧
    ∃ S2, insert u8M [⟨0, 3⟩] ⟨8, 9⟩ = some S2 :=
  C1_amended u8M [⟨0, 3⟩] [⟨5, 6⟩] ⟨8, 9⟩ (by decide) (by decide)
    (by decide)

/-- C2 counterexample: over u8, union of the canonical sets {[10,255]}
and {[10,20]} does not return any interval list at all (it panics), so in
particular it does not return a canonical one. -/
theorem C2_counterexample :
    canonical u8M [⟨10, 255⟩] ∧ canonical u8M [⟨10, 20⟩] ∧
    union u8M [⟨10, 255⟩] [⟨10, 20⟩] = none := by decide

/-- C2 (amended): whenever union returns (it can panic, see C1), its
result is canonical: strictly increasing by lower bound, non-overlapping
and non-adjacent (for consecutive intervals the successor of the earlier
upper bound exists and is strictly below the later lower bound);
intersection always returns a canonical list; difference and complement
return canonical lists whenever they return (they always do on canonical
inputs). -/
theorem C2_amended : ∀ {α : Type} [inst : LinearOrder α]
    (M : StepModel α) (A B : List (Interval α)),
    canonical M A → canonical M B →
    (∀ S, union M A B = some S → canonical M S) ∧
    canonical M (intersection A B) ∧
    (∀ D, difference M A B = some D → canonical M D) ∧
    (∀ MIN MAX : α, (∀ z, MIN ≤ z) → (∀ z, z ≤ MAX) →
      ∀ C, complement M MIN MAX A = some C → canonical M C) := by
  intro α inst M A B hA hB
  refine ⟨fun S hS => union_canonical hA hB hS,
    intersection_canonical hA hB,
    fun D hD => difference_canonical hA hB hD,
    fun MIN MAX hMIN hMAX C hC => ?_⟩
  have hfullcan : canonical M [⟨MIN, MAX⟩] := by
    refine ⟨?_, trivial⟩
    intro i hi
    rcases List.mem_cons.mp hi with hi | hi
    · cases hi; exact hMIN MAX
    · cases hi
  exact difference_canonical hfullcan hA hC

set_option maxRecDepth 8000 in
theorem C2_witness :
    canonical u8M (intersection [⟨0, 5⟩, ⟨8, 10⟩] [⟨3, 9⟩]) ∧
    canonical u8M [(⟨4, 255⟩ : Interval (Fin 256))] :=
  ⟨(C2_amended u8M [⟨0, 5⟩, ⟨8, 10⟩] [⟨3, 9⟩] (by decide)
      (by decide)).2.1,
    (C2_amended u8M [⟨0, 3⟩] [] (by decide) (by decide)).2.2.2
      0 255 (by decide) (by decide) [⟨4, 255⟩] (by decide)⟩

/-- C3 counterexample: over u8, union of the canonical sets {[100,255]}
and {[200,210]} panics instead of returning the set with the union of
the memberships. -/
theorem C3_counterexample :
    canonical u8M [⟨100, 255⟩] ∧ canonical u8M [⟨200, 210⟩] ∧
    union u8M [⟨100, 255⟩] [⟨200, 210⟩] = none := by decide

/-- C3 (amended): whenever union returns (it can panic, see C1), its
membership is exactly the union of the two inputs' memberships; the
merge-when-touching behaviour of the two integer scenarios holds:
{[1,3]} with {[4,6]} gives the single interval [1,6], while {[1,3]} with
{[5,6]} keeps the two intervals. -/
theorem C3_amended :
    (∀ {α : Type} [inst : LinearOrder α] (M : StepModel α)
      (A B S : List (Interval α)), canonical M A → canonical M B →
      union M A B = some S → ∀ x, memS x S ↔ memS x A ∨ memS x B) ∧
    union intM [⟨1, 3⟩] [⟨4, 6⟩] = some [⟨1, 6⟩] ∧
    union intM [⟨1, 3⟩] [⟨5, 6⟩] = some [⟨1, 3⟩, ⟨5, 6⟩] := by
  refine ⟨?_, by decide, by decide⟩
  intro α inst M A B S hA hB hS x
  exact union_mem (canonical_sorted hA) (canonical_sorted hB) hS x

theorem C3_witness :
    memS (2 : Fin 256) [(⟨0, 3⟩ : Interval (Fin 256)), ⟨5, 10⟩] ↔
      memS (2 : Fin 256) [(⟨0, 3⟩ : Interval (Fin 256))] ∨
      memS (2 : Fin 256) [(⟨5, 10⟩ : Interval (Fin 256))] :=
  C3_amended.1 u8M [⟨0, 3⟩] [⟨5, 10⟩] [⟨0, 3⟩, ⟨5, 10⟩] (by decide)
    (by decide) (by decide) 2

/-- C4 counterexample: over u8, A.union(B) panics while B.union(A)
returns for A = {[0,255]}, B = {[0,3]} (so the two have no common
result), and A.union(A) panics instead of returning A for the canonical
set A = {[0,255]} (idempotence fails). -/
theorem C4_counterexample :
    canonical u8M [⟨0, 255⟩] ∧ canonical u8M [⟨0, 3⟩] ∧
    union u8M [⟨0, 255⟩] [⟨0, 3⟩] = none ∧
    union u8M [⟨0, 3⟩] [⟨0, 255⟩] = some [⟨0, 255⟩] ∧
    union u8M [⟨0, 255⟩] [⟨0, 255⟩] = none := by
  refine ⟨by decide, by decide, by decide, by decide, by decide⟩

/-- C4 (amended): whenever both A.union(B) and B.union(A) return (either
may panic, see C1), the two results have the same logical membership;
and whenever A.union(A) returns, it equals A as a canonical list. -/
theorem C4_amended :
    (∀ {α : Type} [inst : LinearOrder α] (M : StepModel α)
      (A B S S2 : List (Interval α)), canonical M A → canonical M B →
      union M A B = some S → union M B A = some S2 →
      ∀ x, memS x S ↔ memS x S2) ∧
    (∀ {α : Type} [inst : LinearOrder α] (M : StepModel α)
      (A S : List (Interval α)), canonical M A →
      union M A A = some S → S = A) := by
  constructor
  · intro α inst M A B S S2 hA hB hS hS2 x
    rw [union_mem (canonical_sorted hA) (canonical_sorted hB) hS x,
      union_mem (canonical_sorted hB) (canonical_sorted hA) hS2 x]
    tauto
  · intro α inst M A S hA hS
    refine canonical_unique (union_canonical hA hA hS) hA ?_
    intro x
    rw [union_mem (canonical_sorted hA) (canonical_sorted hA) hS x]
    tauto

theorem C4_witness :
    (∀ x, memS x [(⟨0, 3⟩ : Interval (Fin 256)), ⟨5, 10⟩] ↔
      memS x [(⟨0, 3⟩ : Interval (Fin 256)), ⟨5, 10⟩]) ∧
    ([(⟨0, 3⟩ : Interval (Fin 256))] : List (Interval (Fin 256))) =
      [⟨0, 3⟩] :=
  ⟨C4_amended.1 u8M [⟨0, 3⟩] [⟨5, 10⟩] [⟨0, 3⟩, ⟨5, 10⟩]
      [⟨0, 3⟩, ⟨5, 10⟩] (by decide) (by decide) (by decide) (by decide),
    C4_amended.2 u8M [⟨0, 3⟩] [⟨0, 3⟩] (by decide) (by decide)⟩

/-- C5: for canonical A and B, A.intersection(B).union(A.difference(B))
returns (difference is total on canonical inputs, and this union never
panics because its operands are disjoint) and has the same logical
membership as A. -/
theorem C5_thm : ∀ {α : Type} [inst : LinearOrder α] (M : StepModel α)
    (A B : List (Interval α)), canonical M A → canonical M B →
    ∃ D U, difference M A B = some D ∧
      union M (intersection A B) D = some U ∧
      ∀ x, memS x U ↔ memS x A := by
  intro α inst M A B hA hB
  obtain ⟨D, hD⟩ := difference_isSome_set (B := B) hA.1
  have hDmem := difference_mem hA hB hD
  have hDcan := difference_canonical hA hB hD
  have hIcan := intersection_canonical hA hB
  have hImem := intersection_mem hA hB
  have hdisj : ∀ x, ¬ (memS x (intersection A B) ∧ memS x D) := by
    rintro x ⟨h1, h2⟩
    rw [hImem x] at h1
    rw [hDmem x] at h2
    exact h2.2 h1.2
  obtain ⟨U, hU⟩ := union_isSome_of_disjoint hIcan hDcan hdisj
  refine ⟨D, U, hD, hU, ?_⟩
  intro x
  rw [union_mem (canonical_sorted hIcan) (canonical_sorted hDcan) hU x,
    hImem x, hDmem x]
  by_cases hxB : memS x B <;> tauto

theorem C5_witness :
    ∃ D U, difference u8M [⟨0, 255⟩] [⟨5, 10⟩] = some D ∧
      union u8M (intersection [⟨0, 255⟩] [⟨5, 10⟩]) D = some U ∧
      ∀ x, memS x U ↔ memS x [(⟨0, 255⟩ : Interval (Fin 256))] :=
  C5_thm u8M [⟨0, 255⟩] [⟨5, 10⟩] (by decide) (by decide)

/-- C6: complement (full().difference(self)) is an involution on
canonical sets over a bounded index type, and over u8 the complement of
the full set [0,255] is the empty set and vice versa. -/
theorem C6_thm :
    (∀ {α : Type} [inst : LinearOrder α] (M : StepModel α)
      (MIN MAX : α) (A : List (Interval α)),
      (∀ z, MIN ≤ z) → (∀ z, z ≤ MAX) → canonical M A →
      ∃ c1 c2, complement M MIN MAX A = some c1 ∧
        complement M MIN MAX c1 = some c2 ∧ c2 = A) ∧
    complement u8M 0 255 [⟨0, 255⟩] = some [] ∧
    complement u8M 0 255 ([] : List (Interval (Fin 256))) =
      some [⟨0, 255⟩] := by
  refine ⟨?_, by decide, by decide⟩
  intro α inst M MIN MAX A hMIN hMAX hA
  have hfullcan : canonical M [⟨MIN, MAX⟩] := by
    refine ⟨?_, trivial⟩
    intro i hi
    rcases List.mem_cons.mp hi with hi | hi
    · cases hi; exact hMIN MAX
    · cases hi
  have hfullmem : ∀ x : α, memS x [(⟨MIN, MAX⟩ : Interval α)] :=
    fun x => ⟨⟨MIN, MAX⟩, by simp, hMIN x, hMAX x⟩
  obtain ⟨c1, hc1⟩ := difference_isSome_set (B := A) hfullcan.1
  have hc1can := difference_canonical hfullcan hA hc1
  have hc1mem := difference_mem hfullcan hA hc1
  obtain ⟨c2, hc2⟩ := difference_isSome_set (B := c1) hfullcan.1
  have hc2can := difference_canonical hfullcan hc1can hc2
  have hc2mem := difference_mem hfullcan hc1can hc2
  refine ⟨c1, c2, hc1, hc2, ?_⟩
  refine canonical_unique hc2can hA ?_
  intro x
  rw [hc2mem x, hc1mem x]
  have hf := hfullmem x
  by_cases hxA : memS x A <;> tauto

set_option maxRecDepth 8000 in
theorem C6_witness :
    ∃ c1 c2, complement u8M 0 255 [⟨3, 7⟩] = some c1 ∧
      complement u8M 0 255 c1 = some c2 ∧
      c2 = [(⟨3, 7⟩ : Interval (Fin 256))] :=
  C6_thm.1 u8M 0 255 [⟨3, 7⟩] (by decide) (by decide) (by decide)

/-- C7: the char Step instance skips the surrogate gap: forward_checked
maps 0xD7FF to 0xE000 and returns none at char::MAX; backward_checked
maps 0xE000 to 0xD7FF and returns none at the minimum 0; steps_between
subtracts the gap width 0x800 from the numeric difference exactly when
the range straddles the gap, and the value returned is the exact
successor count (iterating forward_checked that many times reaches the
end); in particular steps_between(0xD7FE, 0xE001) = (3, some 3). -/
theorem C7_thm :
    charForwardChecked 0xD7FF = some 0xE000 ∧
    charForwardChecked MAX_CHAR = none ∧
    charBackwardChecked 0xE000 = some 0xD7FF ∧
    charBackwardChecked 0 = none ∧
    (∀ a b : ℕ, isScalar a → isScalar b → a ≤ b →
      charStepsBetween a b =
        (b - a - (if a < 0xD800 ∧ 0xE000 ≤ b then 0x800 else 0),
          some (b - a - (if a < 0xD800 ∧ 0xE000 ≤ b then 0x800 else 0))) ∧
      charFwdIter (charStepsBetween a b).1 a = some b) ∧
    charStepsBetween 0xD7FE 0xE001 = (3, some 3) := by
  refine ⟨by decide, by decide, by decide, by decide, ?_, by decide⟩
  intro a b ha hb hab
  have heq := charStepsBetween_eq ha hb hab
  have hkey : b - a - (if a < 0xD800 ∧ 0xE000 ≤ b then 0x800 else 0) =
      charIdx b - charIdx a := by
    unfold isScalar MAX_CHAR at ha hb
    unfold charIdx
    split_ifs <;> omega
  constructor
  · rw [heq, hkey]
  · rw [heq]
    exact charFwdIter_steps _ ha hb hab rfl

theorem C7_witness :
    charStepsBetween 0x61 0x7A =
      (0x7A - 0x61 - (if (0x61 : ℕ) < 0xD800 ∧ 0xE000 ≤ 0x7A
        then 0x800 else 0),
        some (0x7A - 0x61 -
          (if (0x61 : ℕ) < 0xD800 ∧ 0xE000 ≤ 0x7A then 0x800 else 0))) ∧
    charFwdIter (charStepsBetween 0x61 0x7A).1 0x61 = some 0x7A :=
  C7_thm.2.2.2.2.1 0x61 0x7A (by decide) (by decide) (by decide)

/-- C8: for every Step instance of the library (modelling the 64-bit
host of the cfg in src/traits.rs: u8..u64/usize and i8..i64/isize as the
narrower-than-usize arms, u128 and i128 as the wider arms — Ipv4Addr and
Ipv6Addr delegate to u32 and u128 — and char), steps_between returns
(0, none) on a reversed pair, degrades to (usize::MAX, none) exactly when
the exact count does not fit the 64-bit word, and otherwise returns the
exact count twice. -/
theorem C8_thm :
    (∀ a b : ℕ, a < 2 ^ 64 → b < 2 ^ 64 →
      (b < a → stepsBetweenUNarrow a b = (0, none)) ∧
      (a ≤ b → stepsBetweenUNarrow a b = (b - a, some (b - a)) ∧
        b - a ≤ USIZE_MAX)) ∧
    (∀ a b : ℤ, -(2 ^ 63) ≤ a → a < 2 ^ 63 → -(2 ^ 63) ≤ b →
      b < 2 ^ 63 →
      (b < a → stepsBetweenINarrow a b = (0, none)) ∧
      (a ≤ b → stepsBetweenINarrow a b =
        ((b - a).toNat, some (b - a).toNat) ∧
        (b - a).toNat ≤ USIZE_MAX)) ∧
    (∀ a b : ℕ, a < 2 ^ 128 → b < 2 ^ 128 →
      (b < a → stepsBetweenUWide a b = (0, none)) ∧
      (a ≤ b → b - a ≤ USIZE_MAX →
        stepsBetweenUWide a b = (b - a, some (b - a))) ∧
      (a ≤ b → USIZE_MAX < b - a →
        stepsBetweenUWide a b = (USIZE_MAX, none))) ∧
    (∀ a b : ℤ, I128_MIN ≤ a → a ≤ I128_MAX → I128_MIN ≤ b →
      b ≤ I128_MAX →
      (b < a → stepsBetweenIWide a b = (0, none)) ∧
      (a ≤ b → (b - a).toNat ≤ USIZE_MAX →
        stepsBetweenIWide a b = ((b - a).toNat, some (b - a).toNat)) ∧
      (a ≤ b → USIZE_MAX < (b - a).toNat →
        stepsBetweenIWide a b = (USIZE_MAX, none))) ∧
    (∀ a b : ℕ, isScalar a → isScalar b →
      (b < a → charStepsBetween a b = (0, none)) ∧
      (a ≤ b → charStepsBetween a b =
        (charIdx b - charIdx a, some (charIdx b - charIdx a)) ∧
        charIdx b - charIdx a ≤ USIZE_MAX)) := by
  refine ⟨?_, ?_, ?_, ?_, ?_⟩
  · intro a b _ hb
    constructor
    · intro hba
      unfold stepsBetweenUNarrow
      rw [if_neg (not_le.mpr hba)]
    · intro hab
      unfold stepsBetweenUNarrow
      rw [if_pos hab]
      exact ⟨rfl, by unfold USIZE_MAX; omega⟩
  · intro a b ha1 ha2 hb1 hb2
    constructor
    · intro hba
      unfold stepsBetweenINarrow
      rw [if_neg (not_le.mpr hba)]
    · intro hab
      unfold stepsBetweenINarrow
      rw [if_pos hab]
      have hmod : (b - a) % (2 ^ 64 : ℤ) = b - a := by omega
      rw [hmod]
      exact ⟨rfl, by unfold USIZE_MAX; omega⟩
  · intro a b _ _
    refine ⟨?_, ?_, ?_⟩
    · intro hba
      unfold stepsBetweenUWide
      rw [if_neg (not_le.mpr hba)]
    · intro hab hfit
      unfold stepsBetweenUWide
      rw [if_pos hab, if_pos hfit]
    · intro hab hbig
      unfold stepsBetweenUWide
      rw [if_pos hab, if_neg (not_le.mpr hbig)]
  · intro a b ha1 ha2 hb1 hb2
    refine ⟨?_, ?_, ?_⟩
    · intro hba
      unfold stepsBetweenIWide
      rw [if_neg (not_le.mpr hba)]
    · intro hab hfit
      unfold stepsBetweenIWide
      have hrange : I128_MIN ≤ b - a ∧ b - a ≤ I128_MAX := by
        unfold I128_MIN I128_MAX at *
        unfold USIZE_MAX at hfit
        omega
      rw [if_pos hab, if_pos hrange, if_pos hfit]
    · intro hab hbig
      unfold stepsBetweenIWide
      rw [if_pos hab]
      by_cases hrange : I128_MIN ≤ b - a ∧ b - a ≤ I128_MAX
      · rw [if_pos hrange, if_neg (not_le.mpr hbig)]
      · rw [if_neg hrange]
  · intro a b ha hb
    constructor
    · intro hba
      unfold charStepsBetween
      rw [if_neg (not_le.mpr hba)]
    · intro hab
      refine ⟨charStepsBetween_eq ha hb hab, ?_⟩
      unfold isScalar MAX_CHAR at ha hb
      unfold charIdx USIZE_MAX
      split_ifs <;> omega

theorem C8_witness :
    stepsBetweenUNarrow 7 3 = (0, none) ∧
    stepsBetweenINarrow (-5) 10 = ((15 : ℤ).toNat, some (15 : ℤ).toNat) ∧
    stepsBetweenUWide 0 (2 ^ 100) = (USIZE_MAX, none) ∧
    stepsBetweenIWide (-(2 ^ 100)) (2 ^ 100) = (USIZE_MAX, none) ∧
    charStepsBetween 0xD7FE 0xE001 =
      (charIdx 0xE001 - charIdx 0xD7FE,
        some (charIdx 0xE001 - charIdx 0xD7FE)) := by
  refine ⟨(C8_thm.1 7 3 (by omega) (by omega)).1 (by omega),
    ?_, ?_, ?_, ?_⟩
  · have h := ((C8_thm.2.1 (-5) 10 (by omega) (by omega) (by omega)
      (by omega)).2 (by omega)).1
    exact h
  · exact ((C8_thm.2.2.1 0 (2 ^ 100) (by omega) (by omega)).2.2
      (by omega) (by unfold USIZE_MAX; omega))
  · exact ((C8_thm.2.2.2.1 (-(2 ^ 100)) (2 ^ 100)
      (by unfold I128_MIN; omega) (by unfold I128_MAX; omega)
      (by unfold I128_MIN; omega) (by unfold I128_MAX; omega)).2.2
      (by omega) (by unfold USIZE_MAX; omega))
  · exact ((C8_thm.2.2.2.2 0xD7FE 0xE001 (by decide) (by decide)).2
      (by omega)).1

/-- C9: Interval::difference never panics on valid intervals: backward
is only called under a.lo < b.lo and forward only under a.hi > b.hi, and
the constructed parts always satisfy the lo ≤ hi assert. -/
theorem C9_thm : ∀ {α : Type} [inst : LinearOrder α] (M : StepModel α)
    (a b : Interval α), a.lo ≤ a.hi → b.lo ≤ b.hi →
    ∃ left right, Interval.difference M a b = some (left, right) := by
  intro α inst M a b ha _
  exact difference_isSome ha

theorem C9_witness :
    ∃ left right, Interval.difference u8M ⟨0, 255⟩ ⟨0, 255⟩ =
      some (left, right) :=
  C9_thm u8M ⟨0, 255⟩ ⟨0, 255⟩ (by decide) (by decide)

/-- C10: the empty set is a two-sided identity for union on canonical
sets, and neither call panics: the adjacency test only steps upper
bounds of non-final intervals, which have successors by canonicity. -/
theorem C10_thm : ∀ {α : Type} [inst : LinearOrder α] (M : StepModel α)
    (A : List (Interval α)), canonical M A →
    union M A empty = some A ∧ union M empty A = some A := by
  intro α inst M A hA
  exact ⟨union_empty_right hA, union_empty_left hA⟩

theorem C10_witness :
    union u8M [⟨0, 10⟩, ⟨20, 255⟩] empty = some [⟨0, 10⟩, ⟨20, 255⟩] ∧
    union u8M empty [⟨0, 10⟩, ⟨20, 255⟩] = some [⟨0, 10⟩, ⟨20, 255⟩] :=
  C10_thm u8M [⟨0, 10⟩, ⟨20, 255⟩] (by decide)

end Claims

end ISet
